import Mathlib

/-!
Verification development for the c2rust source-preserving rewriter
(`rust-refactor/src/rewrite/impls.rs`) and the C-to-Rust type converter
(`ast-importer/src/convert_type.rs`).

The Rust code is shallowly embedded: spans are records of byte offsets, the
rewrite context is threaded explicitly, fallible or panicking code returns
`Option`, and the mutually recursive splice engine is defined by structural
recursion on an explicit fuel parameter (a call-depth bound; `none` means the
run was cut off or an internal invariant was violated, mirroring a panic).
-/

namespace CR

/-! ## Spans (syntax_pos::Span, simplified to the fields the rewriter reads)

A Rust `Span` is a byte range plus a hygiene context; the file a span points
into is recovered through the `CodeMap`.  Here the file is stored directly in
the span.  `ctxt = 0` models `SyntaxContext::empty()` (the default, unexpanded
context). -/

/-- Model of `syntax_pos::FileName`: a real file, a macro-expansion
pseudo-file (`FileName::Macros`), or an anonymous virtual file created when a
printed fragment is reparsed. -/
inductive FName where
  | real (id : Nat)
  | macros (id : Nat)
  | anon (id : Nat)
deriving DecidableEq

/-- Model of `syntax_pos::Span`: file, low byte offset, high byte offset and
hygiene context (`0` = default context). -/
structure Span where
  file : FName
  lo : Nat
  hi : Nat
  ctxt : Nat
deriving DecidableEq

/-- `syntax::codemap::DUMMY_SP`: the synthetic empty span (offsets 0..0,
default context). -/
def DUMMY_SP : Span := ⟨.real 0, 0, 0, 0⟩

/-- `Span::with_lo`. -/
def Span.withLo (s : Span) (lo : Nat) : Span := ⟨s.file, lo, s.hi, s.ctxt⟩

/-- `Span::with_hi`. -/
def Span.withHi (s : Span) (hi : Nat) : Span := ⟨s.file, s.lo, hi, s.ctxt⟩

/-- `fn span_empty(sp: Span) -> bool { sp.lo() == sp.hi() }` -/
def span_empty (sp : Span) : Bool := sp.lo == sp.hi

/-- `fn start_point(sp: Span) -> Span { sp.with_hi(sp.lo()) }` -/
def start_point (sp : Span) : Span := sp.withHi sp.lo

/-- `fn is_rewritable(sp: Span) -> bool`: the span is not `DUMMY_SP` and has
the default (non-macro-expansion) hygiene context. -/
def is_rewritable (sp : Span) : Bool := sp ≠ DUMMY_SP && sp.ctxt == 0

/-- Two byte-range spans overlap when some byte position lies strictly inside
both half-open ranges.  An empty span (an insertion point) overlaps nothing. -/
def Span.overlaps (s t : Span) : Prop :=
  s.file = t.file ∧ max s.lo t.lo < min s.hi t.hi

theorem not_overlaps_of_empty_left {s t : Span} (h : s.lo = s.hi) :
    ¬ Span.overlaps s t := by
  rintro ⟨-, hlt⟩
  omega

theorem not_overlaps_of_empty_right {s t : Span} (h : t.lo = t.hi) :
    ¬ Span.overlaps s t := by
  rintro ⟨-, hlt⟩
  omega

/-! ## Text adjustments and edits -/

/-- `rewrite::TextAdjust`: the optional adjustment applied to spliced text. -/
inductive TextAdjust where
  | None
  | Parenthesize
deriving DecidableEq

/-- A recorded rewrite (`rewrite::TextRewrite`, as recorded by
`RewriteCtxt::record(old_span, new_span, rewrites, adjust)`).  Modelled from
the spec: an edit replaces `target` (a span of the text being rewritten) with
the text at `repl` (a span of other source, possibly a pseudo-file holding
freshly printed text), carries nested child edits that apply inside the
replacement text, and an adjustment. -/
inductive Edit where
  | mk (target : Span) (repl : Span) (children : List Edit) (adjust : TextAdjust)

def Edit.target : Edit → Span
  | .mk t _ _ _ => t

def Edit.repl : Edit → Span
  | .mk _ r _ _ => r

def Edit.children : Edit → List Edit
  | .mk _ _ c _ => c

def Edit.adjust : Edit → TextAdjust
  | .mk _ _ _ a => a

theorem Edit.target_mk (t r : Span) (c : List Edit) (a : TextAdjust) :
    (Edit.mk t r c a).target = t := rfl

/-! ## AST model

The rewriter is generic over the AST node kinds (Expr, Pat, Ty, Stmt, Item,
...), dispatching through the `Rewrite`/`Splice`/`SeqItem` traits with
per-kind recursive-descent impls generated by `gen/rewrite.py`.  The closed
`Node` type below is the corresponding sum:

* `leaf` - a terminal value (ident, literal, mutability flag, ...) compared
  by equality; a mismatch is an unrecoverable structural difference;
* `node` - a product node that is not a splice point (e.g. `FnDecl`):
  reconciliation recurses into the children, failing on a kind mismatch;
* `splice` - a splice-point node (e.g. `Expr`, `Stmt`): carries a `NodeId`
  and a `Span` and can switch between recycled and fresh mode;
* `seq` - a list-shaped child; `supported` tells whether the element type
  implements identifier-based sequence rewriting (`SeqItem::supported`). -/
inductive Node where
  | leaf (v : Nat)
  | node (kind : Nat) (args : List Node)
  | splice (id : Nat) (sp : Span) (kind : Nat) (args : List Node)
  | seq (supported : Bool) (elems : List Node)

/-- `Splice::id` / `SeqItem::get_id` (0 for nodes that have no id). -/
def Node.getId : Node → Nat
  | .splice i _ _ _ => i
  | _ => 0

/-- `Splice::span` / `SeqItem::get_span` (`DUMMY_SP` for nodes that have no
span of their own). -/
def Node.getSpan : Node → Span
  | .splice _ sp _ _ => sp
  | _ => DUMMY_SP

/-- Whether a node is a splice point. -/
def Node.isSplicePt : Node → Bool
  | .splice _ _ _ _ => true
  | _ => false

/-! ## LCS diff (model of the external `diff` crate)

`<[T] as Rewrite>::rewrite_recycled` calls `diff::slice(&old_ids, &new_ids)`,
an LCS-based diff from the external `diff` crate.  It is modelled by a
fuel-bounded LCS diff; the tie-break between equally long alignments is a
deterministic choice (the source does not document the crate's own). -/

inductive Step where
  | left
  | right
  | both
deriving DecidableEq

def lcsLenF : Nat → List Nat → List Nat → Nat
  | 0, _, _ => 0
  | _ + 1, [], _ => 0
  | _ + 1, _ :: _, [] => 0
  | f + 1, x :: xs, y :: ys =>
    if x = y then lcsLenF f xs ys + 1
    else max (lcsLenF f xs (y :: ys)) (lcsLenF f (x :: xs) ys)

/-- Length of a longest common subsequence. -/
def lcsLen (a b : List Nat) : Nat := lcsLenF (a.length + b.length) a b

def diffSliceF : Nat → List Nat → List Nat → List Step
  | 0, _, _ => []
  | _ + 1, [], [] => []
  | f + 1, _ :: xs, [] => .left :: diffSliceF f xs []
  | f + 1, [], _ :: ys => .right :: diffSliceF f [] ys
  | f + 1, x :: xs, y :: ys =>
    if x = y then .both :: diffSliceF f xs ys
    else if lcsLen (x :: xs) ys ≤ lcsLen xs (y :: ys) then
      .left :: diffSliceF f xs (y :: ys)
    else
      .right :: diffSliceF f (x :: xs) ys

/-- `diff::slice(old, new)`: `left` steps consume `old`, `right` steps
consume `new`, `both` steps consume one element of each. -/
def diffSlice (a b : List Nat) : List Step := diffSliceF (a.length + b.length) a b

/-! ## Rewrite context

`rewrite::RewriteCtxt`: the old-node tables (collapsed to a single id-indexed
table), the append-only edit log (`mark` is a saved length, `rewind`
truncates), the fresh-start span, and a counter for the virtual files created
when printed fragments are reparsed (modelling codemap growth). -/

structure RCtx where
  table : Nat → Option Node
  edits : List Edit
  freshStart : Span
  nextParse : Nat

/-- `RewriteCtxt::record`. -/
def RCtx.record (rcx : RCtx) (e : Edit) : RCtx :=
  { rcx with edits := rcx.edits ++ [e] }

/-! ## The splice engine

All mutually recursive operations of the engine are gathered in one structure
and built level by level from a fuel parameter, so that every definition is
computable by plain structural recursion on `Nat`.  Each call into the engine
consumes one level of fuel; `none` means the fuel ran out or a "fail loudly"
situation was reached (the panics of `Option::rewrite_fresh` /
`[T]::rewrite_fresh` on structurally different new/reparsed trees, and
ill-typed constructor mixes that the Rust type system rules out). -/

structure EngineFns where
  /-- `Rewrite::rewrite_recycled(new, old, rcx) -> bool` (`true` = failed). -/
  rr : Node → Node → RCtx → Option (Bool × RCtx)
  /-- positional child-by-child recycled walk (generated product impls and
  the unsupported-sequence loop). -/
  rrL : List Node → List Node → RCtx → Option (Bool × RCtx)
  /-- the step walk of `<[T] as Rewrite>::rewrite_recycled` over the computed
  diff; `prev` is `old[i - 1]`'s span, the list arguments are the remaining
  old and new elements. -/
  seqW : List Step → List Node → List Node → Option Span → RCtx → Option (Bool × RCtx)
  /-- `Splice::splice_recycled(new, old, rcx)`. -/
  spR : Node → Node → RCtx → Option RCtx
  /-- `Splice::splice_recycled_span(new, old_span, rcx)`. -/
  spRS : Node → Span → RCtx → Option RCtx
  /-- `Splice::splice_fresh(new, reparsed, rcx) -> bool` (`true` = reverted). -/
  spF : Node → Node → RCtx → Option (Bool × RCtx)
  /-- `Rewrite::rewrite_fresh(new, reparsed, rcx)`. -/
  rf : Node → Node → RCtx → Option RCtx
  /-- positional child-by-child fresh walk. -/
  rfL : List Node → List Node → RCtx → Option RCtx
  /-- model of `Splice::parse(sess, &printed)`: reparsing the printed text of
  a node yields a structurally identical tree whose spans point into a fresh
  virtual file. -/
  renum : FName → Nat → Node → Option (Node × Nat)
  renumL : FName → Nat → List Node → Option (List Node × Nat)

/-- Fuel exhausted: every operation gives `none`. -/
def engineZero : EngineFns where
  rr := fun _ _ _ => none
  rrL := fun _ _ _ => none
  seqW := fun _ _ _ _ _ => none
  spR := fun _ _ _ => none
  spRS := fun _ _ _ => none
  spF := fun _ _ _ => none
  rf := fun _ _ _ => none
  rfL := fun _ _ _ => none
  renum := fun _ _ _ => none
  renumL := fun _ _ _ => none

/-- One level of the engine, with all recursive calls going through `P`. -/
def engineStep (P : EngineFns) : EngineFns where
  rr := fun new old rcx =>
    match new, old with
    | .leaf v1, .leaf v2 => some (v1 ≠ v2, rcx)
    | .node k1 a1, .node k2 a2 =>
      if k1 = k2 then P.rrL a1 a2 rcx else some (true, rcx)
    | .splice _ _ k1 a1, .splice _ _ k2 a2 =>
      -- generated splice-point impl: try the default child-by-child strategy
      -- under a mark; on failure rewind and fall back to splice_recycled,
      -- which never reports failure.
      let mark := rcx.edits.length
      match (if k1 = k2 then P.rrL a1 a2 rcx else some (true, rcx)) with
      | none => none
      | some (false, rcx1) => some (false, rcx1)
      | some (true, rcx1) =>
        match P.spR new old { rcx1 with edits := rcx1.edits.take mark } with
        | none => none
        | some rcx2 => some (false, rcx2)
    | .seq sup1 e1, .seq sup2 e2 =>
      if sup1 = sup2 then
        if sup1 then
          if e2.length = 0 ∧ e1.length ≠ 0 then some (true, rcx)
          else
            P.seqW (diffSlice (e2.map Node.getId) (e1.map Node.getId)) e2 e1 none rcx
        else
          if e1.length = e2.length then P.rrL e1 e2 rcx else some (true, rcx)
      else none
    | _, _ => none
  rrL := fun l1 l2 rcx =>
    match l1, l2 with
    | [], [] => some (false, rcx)
    | x :: xs, y :: ys =>
      match P.rr x y rcx with
      | none => none
      | some (true, rcx1) => some (true, rcx1)
      | some (false, rcx1) => P.rrL xs ys rcx1
    | _, _ => some (true, rcx)
  seqW := fun steps olds news prev rcx =>
    match steps with
    | [] => some (false, rcx)
    | .left :: rest =>
      match olds with
      | [] => none
      | o :: os =>
        let rcx1 := rcx.record (.mk o.getSpan DUMMY_SP [] .None)
        P.seqW rest os news (some o.getSpan) rcx1
    | .right :: rest =>
      match news with
      | [] => none
      | n :: ns =>
        let before := prev.getD DUMMY_SP
        let after := ((olds.head?).map Node.getSpan).getD DUMMY_SP
        if is_rewritable before then
          match P.spRS n (before.withLo before.hi) rcx with
          | none => none
          | some rcx1 => P.seqW rest olds ns prev rcx1
        else if is_rewritable after then
          match P.spRS n (after.withHi after.lo) rcx with
          | none => none
          | some rcx1 => P.seqW rest olds ns prev rcx1
        else
          some (true, rcx)
    | .both :: rest =>
      match olds, news with
      | o :: os, n :: ns =>
        match P.rr n o rcx with
        | none => none
        | some (true, rcx1) => some (true, rcx1)
        | some (false, rcx1) => P.seqW rest os ns (some o.getSpan) rcx1
      | _, _ => none
  spR := fun new old rcx =>
    if is_rewritable old.getSpan then P.spRS new old.getSpan rcx
    else some rcx
  spRS := fun new oldSpan rcx =>
    match P.renum (.anon rcx.nextParse) 0 new with
    | none => none
    | some (reparsed, _) =>
      let rcx1 : RCtx := { rcx with nextParse := rcx.nextParse + 1 }
      match P.rf new reparsed { rcx1 with edits := [], freshStart := new.getSpan } with
      | none => none
      | some inner =>
        some { inner with
               edits := rcx1.edits ++ [.mk oldSpan reparsed.getSpan inner.edits .None],
               freshStart := rcx1.freshStart }
  spF := fun new reparsed rcx =>
    if new.getSpan = rcx.freshStart then some (false, rcx)
    else
      match rcx.table new.getId with
      | none => some (false, rcx)
      | some old =>
        if is_rewritable old.getSpan then
          match old.getSpan.file with
          | .macros _ => some (false, rcx)
          | _ =>
            match P.rr new old { rcx with edits := [] } with
            | none => none
            | some (true, inner) => some (false, { inner with edits := rcx.edits })
            | some (false, inner) =>
              some (true, { inner with
                edits := rcx.edits ++ [.mk reparsed.getSpan old.getSpan inner.edits .None] })
        else some (false, rcx)
  rf := fun new reparsed rcx =>
    match new, reparsed with
    | .leaf v1, .leaf v2 => if v1 = v2 then some rcx else none
    | .node k1 a1, .node k2 a2 =>
      if k1 = k2 then P.rfL a1 a2 rcx else none
    | .splice _ _ k1 a1, .splice _ _ k2 a2 =>
      match P.spF new reparsed rcx with
      | none => none
      | some (true, rcx1) => some rcx1
      | some (false, rcx1) =>
        if k1 = k2 then P.rfL a1 a2 rcx1 else none
    | .seq sup1 e1, .seq sup2 e2 =>
      if sup1 = sup2 ∧ e1.length = e2.length then P.rfL e1 e2 rcx else none
    | _, _ => none
  rfL := fun l1 l2 rcx =>
    match l1, l2 with
    | [], [] => some rcx
    | x :: xs, y :: ys =>
      match P.rf x y rcx with
      | none => none
      | some rcx1 => P.rfL xs ys rcx1
    | _, _ => none
  renum := fun f c n =>
    match n with
    | .leaf v => some (.leaf v, c)
    | .node k args =>
      match P.renumL f c args with
      | none => none
      | some (args1, c1) => some (.node k args1, c1)
    | .splice i _ k args =>
      match P.renumL f (c + 1) args with
      | none => none
      | some (args1, c1) => some (.splice i ⟨f, c, c1 + 1, 0⟩ k args1, c1 + 1)
    | .seq sup elems =>
      match P.renumL f c elems with
      | none => none
      | some (elems1, c1) => some (.seq sup elems1, c1)
  renumL := fun f c l =>
    match l with
    | [] => some ([], c)
    | x :: xs =>
      match P.renum f c x with
      | none => none
      | some (x1, c1) =>
        match P.renumL f c1 xs with
        | none => none
        | some (xs1, c2) => some (x1 :: xs1, c2)

/-- The fuel-indexed engine. -/
def engine : Nat → EngineFns
  | 0 => engineZero
  | fuel + 1 => engineStep (engine fuel)

/-- `Rewrite::rewrite_recycled` at a given fuel. -/
def rewrite_recycled (fuel : Nat) : Node → Node → RCtx → Option (Bool × RCtx) :=
  (engine fuel).rr

/-- `Rewrite::rewrite_fresh` at a given fuel. -/
def rewrite_fresh (fuel : Nat) : Node → Node → RCtx → Option RCtx :=
  (engine fuel).rf

/-- `Splice::splice_recycled` at a given fuel. -/
def splice_recycled (fuel : Nat) : Node → Node → RCtx → Option RCtx :=
  (engine fuel).spR

/-- `Splice::splice_recycled_span` at a given fuel. -/
def splice_recycled_span (fuel : Nat) : Node → Span → RCtx → Option RCtx :=
  (engine fuel).spRS

/-- `Splice::splice_fresh` at a given fuel. -/
def splice_fresh (fuel : Nat) : Node → Node → RCtx → Option (Bool × RCtx) :=
  (engine fuel).spF

/-! ## Precedence and adjustment (`Expr::get_adjustment`, `binop_left_prec`,
`binop_right_prec`)

`<Expr as Splice>::get_adjustment` reads the expression's own precedence
order (`self.precedence().order()`), whether its kind is `ExprKind::Field`,
and `parser::contains_exterior_struct_lit(self)`; the three are externally
computed attributes of the expression and are carried here as data. -/

/-- The attributes of an expression that `get_adjustment` inspects. -/
structure ExprInfo where
  precOrder : Int
  isField : Bool
  containsExteriorStructLit : Bool

/-- `rewrite::ExprPrec`: the minimum precedence required at the destination
position (normal, conditional head, or callee of a call). -/
inductive ExprPrec where
  | Normal (min : Int)
  | Cond (min : Int)
  | Callee (min : Int)
deriving DecidableEq

/-- `<Expr as Splice>::get_adjustment`. -/
def get_adjustment (e : ExprInfo) (p : ExprPrec) : TextAdjust :=
  let need_parens : Bool :=
    match p with
    | .Normal min_prec => decide (e.precOrder < min_prec)
    | .Cond min_prec => decide (e.precOrder < min_prec) || e.containsExteriorStructLit
    | .Callee min_prec => if e.isField then true else decide (e.precOrder < min_prec)
  if need_parens then .Parenthesize else .None

/-- `syntax::util::parser::Fixity` (external crate). -/
inductive Fixity where
  | Left
  | Right
  | None
deriving DecidableEq

/-- The part of `syntax::util::parser::AssocOp` (external crate) that
`binop_left_prec` / `binop_right_prec` read: `precedence()` (cast to `i8`)
and `fixity()`, both functions of the binary operator. -/
structure AssocOp where
  prec : Int
  fixity : Fixity

/-- `fn binop_left_prec(op: &BinOp) -> i8`. -/
def binop_left_prec (op : AssocOp) : Int :=
  match op.fixity with
  | .Left => op.prec
  | .Right => op.prec + 1
  | .None => op.prec + 1

/-- `fn binop_right_prec(op: &BinOp) -> i8`. -/
def binop_right_prec (op : AssocOp) : Int :=
  match op.fixity with
  | .Left => op.prec + 1
  | .Right => op.prec
  | .None => op.prec + 1

/-- Modelled from the spec: the destination context for an expression spliced
as a standalone statement imposes no minimum precedence (the generated
`Stmt`/`Expr` descent code that installs `ExprPrec` into the context is
produced by `gen/rewrite.py` and is not part of the sources; the spec states
that splicing an expression as a standalone statement yields adjustment
`None`).  `-100` sits below the precedence order of every expression. -/
def stmt_expr_prec : ExprPrec := .Normal (-100)

/-- Modelled from the spec: the destination context installed for the left
operand of a binary operator requires `binop_left_prec` of the operator
(the installing code is generated by `gen/rewrite.py`). -/
def binop_left_operand_prec (op : AssocOp) : ExprPrec := .Normal (binop_left_prec op)

/-! ## `TypeConverter::convert` (`ast-importer/src/convert_type.rs`)

The C-side type table (`c_ast::TypedAstContext`) and the name registry
(`renamer`) are externally populated; they are carried as functions.  The
produced Rust type AST is modelled by `RTy`; `none` at the outer level is a
panic (an `unwrap` of `None` or of an `Err`, or fuel exhaustion on a cyclic
type table). -/

structure CQualTypeId where
  is_const : Bool
  ctype : Nat

/-- `c_ast::CTypeKind` (the variants `convert` matches on; `Other` stands for
the kinds that fall to the catch-all `ref t => Err(...)` arm). -/
inductive CTypeKind where
  | Void
  | Bool
  | Short
  | Int
  | Long
  | LongLong
  | UShort
  | UInt
  | ULong
  | ULongLong
  | SChar
  | UChar
  | Char
  | Double
  | Float
  | Int128
  | UInt128
  | Pointer (q : CQualTypeId)
  | Elaborated (t : Nat)
  | Decayed (t : Nat)
  | Paren (t : Nat)
  | Struct (d : Nat)
  | Union (d : Nat)
  | Enum (d : Nat)
  | Typedef (d : Nat)
  | ConstantArray (element : Nat) (count : Nat)
  | Attributed (ty : CQualTypeId)
  | FunctionT (ret : CQualTypeId) (params : List CQualTypeId)
  | Other (tag : Nat)

inductive Mutability where
  | Immutable
  | Mutable
deriving DecidableEq

/-- The Rust types `convert` builds through the `mk()` builder. -/
inductive RTy where
  | tuple (tys : List RTy)
  | path (segs : List String)
  | ptr (mutbl : Mutability) (ty : RTy)
  | array (ty : RTy) (len : Nat)
  | barefn (inputs : List RTy) (output : RTy)
  | pathParams (seg : String) (params : List RTy)

/-- `c_ast::TypedAstContext`: `index(ctype).kind` and
`resolve_type(ctype).kind`. -/
structure TypedAstContext where
  index : Nat → CTypeKind
  resolve : Nat → CTypeKind

/-- `TypeConverter`: `resolve_decl_name` looks a declaration id up in the
renamer. -/
structure TypeConverter where
  renamer : Nat → Option String

def libcPath (s : String) : RTy := .path ["libc", s]

/-- The two mutually recursive operations of the type converter: converting
one type, and the `params.iter().map(|x| self.convert(ctxt, x.ctype).unwrap())`
loop of the function-pointer case (an `Err` parameter result is unwrapped,
i.e. panics). -/
structure ConvFns where
  cv : Nat → Option (Except String RTy)
  cvL : List CQualTypeId → Option (List RTy)

def convZero : ConvFns where
  cv := fun _ => none
  cvL := fun ps => match ps with
    | [] => some []
    | _ :: _ => none

def convStep (tc : TypeConverter) (ctxt : TypedAstContext) (P : ConvFns) : ConvFns where
  cv := fun ctype =>
    match ctxt.index ctype with
    | .Void => some (.ok (.tuple []))
    | .Bool => some (.ok (.path ["bool"]))
    | .Short => some (.ok (libcPath "c_short"))
    | .Int => some (.ok (libcPath "c_int"))
    | .Long => some (.ok (libcPath "c_long"))
    | .LongLong => some (.ok (libcPath "c_longlong"))
    | .UShort => some (.ok (libcPath "c_ushort"))
    | .UInt => some (.ok (libcPath "c_uint"))
    | .ULong => some (.ok (libcPath "c_ulong"))
    | .ULongLong => some (.ok (libcPath "c_ulonglong"))
    | .SChar => some (.ok (libcPath "c_schar"))
    | .UChar => some (.ok (libcPath "c_uchar"))
    | .Char => some (.ok (libcPath "c_char"))
    | .Double => some (.ok (libcPath "c_double"))
    | .Float => some (.ok (libcPath "c_float"))
    | .Int128 => some (.ok (.path ["i128"]))
    | .UInt128 => some (.ok (.path ["u128"]))
    | .Pointer q =>
      match ctxt.resolve q.ctype with
      | .Void =>
        let mutbl := if q.is_const then Mutability.Immutable else Mutability.Mutable
        some (.ok (.ptr mutbl (libcPath "c_void")))
      | .FunctionT ret params =>
        -- the parameter types are converted with `.unwrap()` (panic on Err),
        -- the return type with `?` (propagate Err).
        match P.cvL params with
        | none => none
        | some inputs =>
          match P.cv ret.ctype with
          | none => none
          | some (.error e) => some (.error e)
          | some (.ok output) =>
            some (.ok (.pathParams "Option" [.barefn inputs output]))
      | _ =>
        match P.cv q.ctype with
        | none => none
        | some (.error e) => some (.error e)
        | some (.ok child_ty) =>
          let mutbl := if q.is_const then Mutability.Immutable else Mutability.Mutable
          some (.ok (.ptr mutbl child_ty))
    | .Elaborated t => P.cv t
    | .Decayed t => P.cv t
    | .Paren t => P.cv t
    | .Struct decl_id =>
      match tc.renamer decl_id with
      | none => some (.error ("Unknown decl id " ++ toString decl_id))
      | some new_name => some (.ok (.path [new_name]))
    | .Union decl_id =>
      match tc.renamer decl_id with
      | none => none
      | some new_name => some (.ok (.path [new_name]))
    | .Enum decl_id =>
      match tc.renamer decl_id with
      | none => none
      | some new_name => some (.ok (.path [new_name]))
    | .Typedef decl_id =>
      match tc.renamer decl_id with
      | none => none
      | some new_name => some (.ok (.path [new_name]))
    | .ConstantArray element count =>
      match P.cv element with
      | none => none
      | some (.error e) => some (.error e)
      | some (.ok ty) => some (.ok (.array ty count))
    | .Attributed ty => P.cv ty.ctype
    | .FunctionT _ _ => some (.error "Unsupported type Function")
    | .Other tag => some (.error ("Unsupported type " ++ toString tag))
  cvL := fun ps =>
    match ps with
    | [] => some []
    | p :: rest =>
      match P.cv p.ctype with
      | none => none
      | some (.error _) => none
      | some (.ok ty) =>
        match P.cvL rest with
        | none => none
        | some tys => some (ty :: tys)

def convFns (tc : TypeConverter) (ctxt : TypedAstContext) : Nat → ConvFns
  | 0 => convZero
  | fuel + 1 => convStep tc ctxt (convFns tc ctxt fuel)

/-- `TypeConverter::convert(ctxt, ctype)` at a given fuel. -/
def convert (tc : TypeConverter) (ctxt : TypedAstContext) (fuel ctype : Nat) :
    Option (Except String RTy) :=
  (convFns tc ctxt fuel).cv ctype

/-! ## Frame facts: the old-node table is never written

`NodeTable` is built once before reconciliation and only read; every engine
operation leaves it unchanged. -/

theorem table_frame : ∀ fuel : Nat,
    (∀ n o rcx p, (engine fuel).rr n o rcx = some p → p.2.table = rcx.table) ∧
    (∀ l1 l2 rcx p, (engine fuel).rrL l1 l2 rcx = some p → p.2.table = rcx.table) ∧
    (∀ steps olds news prev rcx p,
      (engine fuel).seqW steps olds news prev rcx = some p → p.2.table = rcx.table) ∧
    (∀ n o rcx r, (engine fuel).spR n o rcx = some r → r.table = rcx.table) ∧
    (∀ n sp rcx r, (engine fuel).spRS n sp rcx = some r → r.table = rcx.table) ∧
    (∀ n m rcx p, (engine fuel).spF n m rcx = some p → p.2.table = rcx.table) ∧
    (∀ n m rcx r, (engine fuel).rf n m rcx = some r → r.table = rcx.table) ∧
    (∀ l1 l2 rcx r, (engine fuel).rfL l1 l2 rcx = some r → r.table = rcx.table) := by
  intro fuel
  induction fuel with
  | zero =>
    refine ⟨?_, ?_, ?_, ?_, ?_, ?_, ?_, ?_⟩ <;> intros <;>
      simp_all [engine, engineZero]
  | succ f ih =>
    obtain ⟨ih_rr, ih_rrL, ih_seqW, ih_spR, ih_spRS, ih_spF, ih_rf, ih_rfL⟩ := ih
    refine ⟨?_, ?_, ?_, ?_, ?_, ?_, ?_, ?_⟩
    · intro n o rcx p h
      simp only [engine, engineStep] at h
      rcases n with v1 | ⟨k1, a1⟩ | ⟨i1, sp1, k1, a1⟩ | ⟨s1, e1⟩ <;>
        rcases o with v2 | ⟨k2, a2⟩ | ⟨i2, sp2, k2, a2⟩ | ⟨s2, e2⟩ <;>
        simp only at h
      all_goals try exact Option.noConfusion h
      · -- leaf / leaf
        cases h; rfl
      · -- node / node
        split at h
        · exact ih_rrL _ _ _ _ h
        · cases h; rfl
      · -- splice / splice
        split at h
        · exact Option.noConfusion h
        case h_2 rcx1 heq =>
          cases h
          split at heq
          · exact ih_rrL _ _ _ _ heq
          · exact absurd heq (by simp)
        case h_3 rcx1 heq =>
          have htab : rcx1.table = rcx.table := by
            split at heq
            · exact ih_rrL _ _ _ _ heq
            · cases heq; rfl
          split at h
          · exact Option.noConfusion h
          case _ r hr =>
            cases h
            exact (ih_spR _ _ _ _ hr).trans htab
      · -- seq / seq
        split at h
        · split at h
          · split at h
            · cases h; rfl
            · exact ih_seqW _ _ _ _ _ _ h
          · split at h
            · exact ih_rrL _ _ _ _ h
            · cases h; rfl
        · exact absurd h (by simp)
    · intro l1 l2 rcx p h
      simp only [engine, engineStep] at h
      rcases l1 with _ | ⟨x, xs⟩ <;> rcases l2 with _ | ⟨y, ys⟩ <;> simp only at h
      · cases h; rfl
      · cases h; rfl
      · cases h; rfl
      · split at h
        · exact absurd h (by simp)
        case _ rcx1 =>
          cases h
          exact ih_rr _ _ _ _ (by assumption)
        case _ rcx1 hx =>
          exact (ih_rrL _ _ _ _ h).trans (ih_rr _ _ _ _ hx)
    · intro steps olds news prev rcx p h
      simp only [engine, engineStep] at h
      rcases steps with _ | ⟨st, rest⟩
      · simp only at h; cases h; rfl
      · rcases st with _ | _ | _ <;> simp only at h
        · -- left
          rcases olds with _ | ⟨o, os⟩ <;> simp only at h
          · exact absurd h (by simp)
          · exact (ih_seqW _ _ _ _ _ _ h).trans rfl
        · -- right
          rcases news with _ | ⟨n, ns⟩ <;> simp only at h
          · exact absurd h (by simp)
          · split at h
            · split at h
              · exact absurd h (by simp)
              case _ rcx1 h1 =>
                exact (ih_seqW _ _ _ _ _ _ h).trans (ih_spRS _ _ _ _ h1)
            · split at h
              · split at h
                · exact absurd h (by simp)
                case _ rcx1 h1 =>
                  exact (ih_seqW _ _ _ _ _ _ h).trans (ih_spRS _ _ _ _ h1)
              · cases h; rfl
        · -- both
          rcases olds with _ | ⟨o, os⟩ <;> rcases news with _ | ⟨n, ns⟩ <;> simp only at h
          · exact absurd h (by simp)
          · exact absurd h (by simp)
          · exact absurd h (by simp)
          · split at h
            · exact absurd h (by simp)
            case _ rcx1 =>
              cases h
              exact ih_rr _ _ _ _ (by assumption)
            case _ rcx1 hx =>
              exact (ih_seqW _ _ _ _ _ _ h).trans (ih_rr _ _ _ _ hx)
    · intro n o rcx r h
      simp only [engine, engineStep] at h
      split at h
      · exact ih_spRS _ _ _ _ h
      · cases h; rfl
    · intro n sp rcx r h
      simp only [engine, engineStep] at h
      split at h
      · exact absurd h (by simp)
      case _ pr hr =>
        split at h
        · exact absurd h (by simp)
        case _ inner hi =>
          cases h
          simpa using ih_rf _ _ _ _ hi
    · intro n m rcx p h
      simp only [engine, engineStep] at h
      split at h
      · cases h; rfl
      · split at h
        · cases h; rfl
        case _ old hold =>
          split at h
          · split at h
            · cases h; rfl
            · split at h
              · exact absurd h (by simp)
              case _ inner hi =>
                cases h
                simpa using ih_rr _ _ _ _ hi
              case _ inner hi =>
                cases h
                simpa using ih_rr _ _ _ _ hi
          · cases h; rfl
    · intro n m rcx r h
      simp only [engine, engineStep] at h
      rcases n with v1 | ⟨k1, a1⟩ | ⟨i1, sp1, k1, a1⟩ | ⟨s1, e1⟩ <;>
        rcases m with v2 | ⟨k2, a2⟩ | ⟨i2, sp2, k2, a2⟩ | ⟨s2, e2⟩ <;>
        simp only at h
      all_goals try exact Option.noConfusion h
      · split at h
        · cases h; rfl
        · exact absurd h (by simp)
      · split at h
        · exact ih_rfL _ _ _ _ h
        · exact absurd h (by simp)
      · split at h
        · exact absurd h (by simp)
        case _ rcx1 h1 =>
          cases h
          exact ih_spF _ _ _ _ h1
        case _ rcx1 h1 =>
          split at h
          · exact (ih_rfL _ _ _ _ h).trans (ih_spF _ _ _ _ h1)
          · exact absurd h (by simp)
      · split at h
        · exact ih_rfL _ _ _ _ h
        · exact absurd h (by simp)
    · intro l1 l2 rcx r h
      simp only [engine, engineStep] at h
      rcases l1 with _ | ⟨x, xs⟩ <;> rcases l2 with _ | ⟨y, ys⟩ <;> simp only at h
      · cases h; rfl
      · exact absurd h (by simp)
      · exact absurd h (by simp)
      · split at h
        · exact absurd h (by simp)
        case _ rcx1 hx =>
          exact (ih_rfL _ _ _ _ h).trans (ih_rf _ _ _ _ hx)

/-- A successful `splice_recycled_span` appends exactly one edit to the main
log, whose target is the given old span and whose adjustment is `None`; the
fresh-start span is restored. -/
theorem splice_recycled_span_edits (fuel : Nat) (n : Node) (sp : Span) (rcx r : RCtx)
    (h : (engine fuel).spRS n sp rcx = some r) :
    (∃ rep ch, r.edits = rcx.edits ++ [Edit.mk sp rep ch .None]) ∧
    r.freshStart = rcx.freshStart := by
  cases fuel with
  | zero => exact absurd h (by simp [engine, engineZero])
  | succ f =>
    simp only [engine, engineStep] at h
    split at h
    · exact absurd h (by simp)
    case _ pr hr =>
      split at h
      · exact absurd h (by simp)
      case _ inner hi =>
        cases h
        exact ⟨⟨_, _, rfl⟩, rfl⟩

/-! ## Sizes (fuel bounds) -/

mutual

/-- Call-depth bound for one node. -/
def sizeN : Node → Nat
  | .leaf _ => 1
  | .node _ args => 1 + sizeL args
  | .splice _ _ _ args => 2 + sizeL args
  | .seq _ elems => 2 + sizeL elems

/-- Call-depth bound for a list of children. -/
def sizeL : List Node → Nat
  | [] => 1
  | x :: xs => 1 + sizeN x + sizeL xs

end

theorem sizeN_leaf (v : Nat) : sizeN (.leaf v) = 1 := rfl

theorem sizeN_node (k : Nat) (args : List Node) : sizeN (.node k args) = 1 + sizeL args := rfl

theorem sizeN_splice (i : Nat) (sp : Span) (k : Nat) (args : List Node) :
    sizeN (.splice i sp k args) = 2 + sizeL args := rfl

theorem sizeN_seq (sup : Bool) (elems : List Node) :
    sizeN (.seq sup elems) = 2 + sizeL elems := rfl

theorem sizeL_nil : sizeL [] = 1 := rfl

theorem sizeL_cons (x : Node) (xs : List Node) :
    sizeL (x :: xs) = 1 + sizeN x + sizeL xs := rfl

theorem sizeN_pos (n : Node) : 1 ≤ sizeN n := by
  cases n <;>
    simp only [sizeN_leaf, sizeN_node, sizeN_splice, sizeN_seq] <;> omega

theorem sizeL_pos (l : List Node) : 1 ≤ sizeL l := by
  cases l <;> simp only [sizeL_nil, sizeL_cons] <;> omega

/-! ## Idempotence: reconciling a tree against itself -/

theorem diffSliceF_self : ∀ (l : List Nat) (f : Nat), l.length ≤ f →
    diffSliceF f l l = List.replicate l.length .both := by
  intro l
  induction l with
  | nil => intro f _; cases f <;> simp [diffSliceF]
  | cons x xs ih =>
    intro f hf
    cases f with
    | zero => simp at hf
    | succ g =>
      have hxs : xs.length ≤ g := by simp at hf; omega
      simp [diffSliceF, ih g hxs, List.replicate_succ]

theorem diffSlice_self (l : List Nat) :
    diffSlice l l = List.replicate l.length .both :=
  diffSliceF_self l _ (by omega)

/-- Reconciling any tree against itself succeeds and records nothing, given
enough fuel (bound: `sizeN`). -/
theorem engine_self : ∀ fuel : Nat,
    (∀ n rcx, sizeN n ≤ fuel → (engine fuel).rr n n rcx = some (false, rcx)) ∧
    (∀ l rcx, sizeL l ≤ fuel → (engine fuel).rrL l l rcx = some (false, rcx)) ∧
    (∀ os prev rcx, sizeL os ≤ fuel →
      (engine fuel).seqW (List.replicate os.length .both) os os prev rcx = some (false, rcx)) := by
  intro fuel
  induction fuel with
  | zero =>
    refine ⟨fun n _ h => ?_, fun l _ h => ?_, fun os _ _ h => ?_⟩
    · exact absurd h (by have := sizeN_pos n; omega)
    · exact absurd h (by have := sizeL_pos l; omega)
    · exact absurd h (by have := sizeL_pos os; omega)
  | succ f ih =>
    obtain ⟨ih_rr, ih_rrL, ih_seqW⟩ := ih
    refine ⟨?_, ?_, ?_⟩
    · intro n rcx hle
      cases n with
      | leaf v => simp [engine, engineStep]
      | node k args =>
        rw [sizeN_node] at hle
        simp only [engine, engineStep]
        rw [ih_rrL args rcx (by omega)]
        simp
      | splice i sp k args =>
        rw [sizeN_splice] at hle
        simp only [engine, engineStep]
        rw [ih_rrL args rcx (by omega)]
        simp
      | seq sup elems =>
        rw [sizeN_seq] at hle
        have hlen : elems.length ≤ sizeL elems := by
          clear hle
          induction elems with
          | nil => simp [sizeL_nil]
          | cons x xs ih =>
            rw [sizeL_cons]
            have := sizeN_pos x
            simp only [List.length_cons]
            omega
        simp only [engine, engineStep, if_pos rfl]
        cases sup with
        | false =>
          simp only [Bool.false_eq_true, if_false, if_pos rfl]
          exact ih_rrL elems rcx (by omega)
        | true =>
          simp only [if_pos rfl, if_true]
          have hid : (elems.map Node.getId).length = elems.length := by simp
          rw [diffSlice_self, hid]
          split
          case isTrue hc => exact (hc.2 hc.1).elim
          case isFalse =>
            exact ih_seqW elems none rcx (by omega)
    · intro l rcx hle
      cases l with
      | nil => simp [engine, engineStep]
      | cons x xs =>
        rw [sizeL_cons] at hle
        have h1 := sizeN_pos x
        have h2 := sizeL_pos xs
        simp only [engine, engineStep]
        rw [ih_rr x rcx (by omega)]
        exact ih_rrL xs rcx (by omega)
    · intro os prev rcx hle
      cases os with
      | nil => simp [engine, engineStep]
      | cons o os2 =>
        rw [sizeL_cons] at hle
        have h1 := sizeN_pos o
        have h2 := sizeL_pos os2
        simp only [List.length_cons, List.replicate_succ, engine, engineStep]
        rw [ih_rr o rcx (by omega)]
        exact ih_seqW os2 (some o.getSpan) rcx (by omega)

/-! ## Claim C8 -/

/-- Claim C8: for every node kind, reconciling a tree against an identical
tree in recycled mode succeeds (`false` = no failure) and records no edits:
the context, and in particular the edit log, is returned unchanged. -/
theorem claim_c8 (n : Node) (rcx : RCtx) (fuel : Nat) (h : sizeN n ≤ fuel) :
    rewrite_recycled fuel n n rcx = some (false, rcx) :=
  (engine_self fuel).1 n rcx h

/-- Witness for C8: a tree with a leaf, a splice point and a supported
sequence, reconciled against itself. -/
theorem claim_c8_witness :
    sizeN (.splice 1 ⟨.real 1, 0, 10, 0⟩ 0
      [.leaf 2, .seq true [.splice 3 ⟨.real 1, 4, 6, 0⟩ 0 []]]) ≤ 30 ∧
    rewrite_recycled 30
      (.splice 1 ⟨.real 1, 0, 10, 0⟩ 0 [.leaf 2, .seq true [.splice 3 ⟨.real 1, 4, 6, 0⟩ 0 []]])
      (.splice 1 ⟨.real 1, 0, 10, 0⟩ 0 [.leaf 2, .seq true [.splice 3 ⟨.real 1, 4, 6, 0⟩ 0 []]])
      ⟨fun _ => none, [], DUMMY_SP, 0⟩ =
      some (false, ⟨fun _ => none, [], DUMMY_SP, 0⟩) :=
  ⟨by decide,
   claim_c8 (.splice 1 ⟨.real 1, 0, 10, 0⟩ 0
      [.leaf 2, .seq true [.splice 3 ⟨.real 1, 4, 6, 0⟩ 0 []]])
     ⟨fun _ => none, [], DUMMY_SP, 0⟩ 30 (by decide)⟩

/-! ## Conditioned self-reconciliation (used for the single-insertion claim)

If a diagonal recycled reconciliation returns at all, it returns success with
the context unchanged, at any fuel. -/

theorem engine_self_of_some : ∀ fuel : Nat,
    (∀ n rcx p, (engine fuel).rr n n rcx = some p → p = (false, rcx)) ∧
    (∀ l rcx p, (engine fuel).rrL l l rcx = some p → p = (false, rcx)) ∧
    (∀ k os prev rcx p,
      (engine fuel).seqW (List.replicate k .both) os os prev rcx = some p →
        p = (false, rcx)) := by
  intro fuel
  induction fuel with
  | zero =>
    refine ⟨?_, ?_, ?_⟩ <;> intros <;> simp_all [engine, engineZero]
  | succ f ih =>
    obtain ⟨ih_rr, ih_rrL, ih_seqW⟩ := ih
    refine ⟨?_, ?_, ?_⟩
    · intro n rcx p h
      cases n with
      | leaf v => simp [engine, engineStep] at h; simp [h.symm]
      | node k args =>
        simp only [engine, engineStep, if_pos rfl] at h
        exact ih_rrL _ _ _ h
      | splice i sp k args =>
        simp only [engine, engineStep, if_pos rfl] at h
        split at h
        · exact absurd h (by simp)
        case h_2 rcx1 heq =>
          cases h
          exact ih_rrL _ _ _ heq
        case h_3 rcx1 heq =>
          have := ih_rrL _ _ _ heq
          simp at this
      | seq sup elems =>
        cases sup with
        | false =>
          simp only [engine, engineStep, eq_self_iff_true, if_true,
            Bool.false_eq_true, if_false] at h
          exact ih_rrL _ _ _ h
        | true =>
          simp only [engine, engineStep, eq_self_iff_true, if_true, ne_eq,
            and_not_self_iff, if_false] at h
          rw [diffSlice_self] at h
          exact ih_seqW _ _ _ _ _ h
    · intro l rcx p h
      cases l with
      | nil => simp [engine, engineStep] at h; simp [h.symm]
      | cons x xs =>
        simp only [engine, engineStep] at h
        split at h
        · exact absurd h (by simp)
        case h_2 rcx1 heq =>
          cases h
          have := ih_rr _ _ _ heq
          rw [Prod.ext_iff] at this
          exact absurd this.1 (by simp)
        case h_3 rcx1 heq =>
          have h1 := ih_rr _ _ _ heq
          rw [Prod.ext_iff] at h1
          cases h1.2
          exact ih_rrL _ _ _ h
    · intro k os prev rcx p h
      cases k with
      | zero =>
        simp only [List.replicate, engine, engineStep] at h
        cases h; rfl
      | succ k2 =>
        simp only [List.replicate_succ, engine, engineStep] at h
        cases os with
        | nil => exact absurd h (by simp)
        | cons o os2 =>
          simp only at h
          split at h
          · exact absurd h (by simp)
          case h_2 rcx1 heq =>
            cases h
            have := ih_rr _ _ _ heq
            rw [Prod.ext_iff] at this
            exact absurd this.1 (by simp)
          case h_3 rcx1 heq =>
            have h1 := ih_rr _ _ _ heq
            rw [Prod.ext_iff] at h1
            cases h1.2
            exact ih_seqW _ _ _ _ _ h

/-! ## Diff facts for a single insertion -/

theorem lcsLenF_le_left : ∀ (f : Nat) (a b : List Nat), lcsLenF f a b ≤ a.length := by
  intro f
  induction f with
  | zero => intro a b; simp [lcsLenF]
  | succ g ih =>
    intro a b
    cases a with
    | nil => simp [lcsLenF]
    | cons x xs =>
      cases b with
      | nil => simp [lcsLenF]
      | cons y ys =>
        simp only [lcsLenF, List.length_cons]
        split
        · have := ih xs ys; omega
        · have h1 := ih xs (y :: ys)
          have h2 := ih (x :: xs) ys
          simp only [List.length_cons] at h2
          omega

theorem lcsLenF_self : ∀ (l : List Nat) (f : Nat), l.length ≤ f →
    lcsLenF f l l = l.length := by
  intro l
  induction l with
  | nil => intro f _; cases f <;> simp [lcsLenF]
  | cons x xs ih =>
    intro f hf
    cases f with
    | zero => simp at hf
    | succ g =>
      have hxs : xs.length ≤ g := by simp at hf; omega
      simp [lcsLenF, ih g hxs]

theorem lcsLen_self (l : List Nat) : lcsLen l l = l.length :=
  lcsLenF_self l _ (by omega)

theorem lcsLen_le_left (a b : List Nat) : lcsLen a b ≤ a.length :=
  lcsLenF_le_left _ a b

theorem diffSliceF_nil_nil : ∀ f : Nat, diffSliceF f [] [] = [] := by
  intro f; cases f <;> simp [diffSliceF]

theorem diffSliceF_nil_cons (f y : Nat) (ys : List Nat) :
    diffSliceF (f + 1) [] (y :: ys) = .right :: diffSliceF f [] ys := rfl

theorem diffSliceF_cons_cons (f x y : Nat) (xs ys : List Nat) :
    diffSliceF (f + 1) (x :: xs) (y :: ys) =
      if x = y then .both :: diffSliceF f xs ys
      else if lcsLen (x :: xs) ys ≤ lcsLen xs (y :: ys) then
        .left :: diffSliceF f xs (y :: ys)
      else .right :: diffSliceF f (x :: xs) ys := rfl

/-- Diffing `B` against `ξ :: B` with `ξ` fresh yields one insertion followed
by an all-aligned tail. -/
theorem diffSliceF_insert_head (B : List Nat) (ξ : Nat) (f : Nat) (hξ : ξ ∉ B)
    (hf : B.length + 1 ≤ f) :
    diffSliceF f B (ξ :: B) = .right :: List.replicate B.length .both := by
  cases f with
  | zero => simp at hf
  | succ g =>
    cases B with
    | nil => rw [diffSliceF_nil_cons, diffSliceF_nil_nil]; rfl
    | cons z zs =>
      have hne : z ≠ ξ := fun hzξ => hξ (by simp [hzξ.symm])
      have hcond : ¬ (lcsLen (z :: zs) (z :: zs) ≤ lcsLen zs (ξ :: z :: zs)) := by
        have h1 := lcsLen_self (z :: zs)
        have h2 := lcsLen_le_left zs (ξ :: z :: zs)
        simp only [List.length_cons] at h1
        omega
      rw [diffSliceF_cons_cons, if_neg hne, if_neg hcond,
        diffSliceF_self (z :: zs) g (by simp at hf ⊢; omega)]

/-- Diffing along a common prefix emits `both` steps. -/
theorem diffSliceF_front : ∀ (A R1 R2 : List Nat) (f : Nat), A.length ≤ f →
    diffSliceF f (A ++ R1) (A ++ R2) =
      List.replicate A.length .both ++ diffSliceF (f - A.length) R1 R2 := by
  intro A
  induction A with
  | nil => intro R1 R2 f _; simp
  | cons c A2 ih =>
    intro R1 R2 f hf
    cases f with
    | zero => simp at hf
    | succ g =>
      have hA2 : A2.length ≤ g := by simp at hf; omega
      rw [List.cons_append, List.cons_append, diffSliceF_cons_cons, if_pos rfl,
        ih R1 R2 g hA2]
      have h2 : g + 1 - (c :: A2).length = g - A2.length := by
        simp only [List.length_cons]; omega
      rw [h2]
      simp [List.replicate_succ]

/-- `diff::slice` on a sequence with one fresh element inserted: aligned
prefix, one `right` (insertion) step, aligned tail. -/
theorem diffSlice_insert (A B : List Nat) (ξ : Nat) (hξ : ξ ∉ B) :
    diffSlice (A ++ B) (A ++ ξ :: B) =
      List.replicate A.length .both ++ .right :: List.replicate B.length .both := by
  unfold diffSlice
  rw [diffSliceF_front A B (ξ :: B) _ (by simp; omega)]
  congr 1
  exact diffSliceF_insert_head B ξ _ hξ (by simp; omega)

/-! ## Behavior with an empty old-node table

Inside a fresh subtree that has no old counterparts, `rewrite_fresh` along a
reparse of itself changes nothing: `splice_fresh` finds no table entry and
returns `false` everywhere. -/

theorem spF_noTable : ∀ (fuel : Nat) (n m : Node) (rcx : RCtx) (p : Bool × RCtx),
    (∀ i, rcx.table i = none) → (engine fuel).spF n m rcx = some p → p = (false, rcx) := by
  intro fuel n m rcx p ht h
  cases fuel with
  | zero => exact absurd h (by simp [engine, engineZero])
  | succ f =>
    simp only [engine, engineStep] at h
    split at h
    · cases h; rfl
    · rw [ht n.getId] at h
      cases h; rfl

theorem rf_noTable : ∀ fuel : Nat,
    (∀ n m rcx r, (∀ i, rcx.table i = none) → (engine fuel).rf n m rcx = some r → r = rcx) ∧
    (∀ l1 l2 rcx r, (∀ i, rcx.table i = none) →
      (engine fuel).rfL l1 l2 rcx = some r → r = rcx) := by
  intro fuel
  induction fuel with
  | zero =>
    refine ⟨?_, ?_⟩ <;> intros <;> simp_all [engine, engineZero]
  | succ f ih =>
    obtain ⟨ih_rf, ih_rfL⟩ := ih
    refine ⟨?_, ?_⟩
    · intro n m rcx r ht h
      rcases n with v1 | ⟨k1, a1⟩ | ⟨i1, sp1, k1, a1⟩ | ⟨s1, e1⟩ <;>
        rcases m with v2 | ⟨k2, a2⟩ | ⟨i2, sp2, k2, a2⟩ | ⟨s2, e2⟩ <;>
        simp only [engine, engineStep] at h
      all_goals try exact Option.noConfusion h
      · split at h
        · cases h; rfl
        · exact Option.noConfusion h
      · split at h
        · exact ih_rfL _ _ _ _ ht h
        · exact Option.noConfusion h
      · split at h
        · exact Option.noConfusion h
        case h_2 rcx1 heq =>
          have := spF_noTable f _ _ _ _ ht heq
          simp at this
        case h_3 rcx1 heq =>
          have h1 := spF_noTable f _ _ _ _ ht heq
          rw [Prod.ext_iff] at h1
          cases h1.2
          split at h
          · exact ih_rfL _ _ _ _ ht h
          · exact Option.noConfusion h
      · split at h
        · exact ih_rfL _ _ _ _ ht h
        · exact Option.noConfusion h
    · intro l1 l2 rcx r ht h
      rcases l1 with _ | ⟨x, xs⟩ <;> rcases l2 with _ | ⟨y, ys⟩ <;>
        simp only [engine, engineStep] at h
      all_goals try exact Option.noConfusion h
      · cases h; rfl
      · split at h
        · exact Option.noConfusion h
        case h_2 rcx1 heq =>
          have h1 := ih_rf _ _ _ _ ht heq
          cases h1
          exact ih_rfL _ _ _ _ ht h

/-- With an empty old-node table, a successful `splice_recycled_span` is
fully determined: it reparses the node, records one childless edit replacing
`sp` by the reparsed span, bumps the parse counter, and changes nothing
else. -/
theorem spRS_noTable (fuel : Nat) (n : Node) (sp : Span) (rcx r : RCtx)
    (ht : ∀ i, rcx.table i = none)
    (h : (engine (fuel + 1)).spRS n sp rcx = some r) :
    ∃ rep c, (engine fuel).renum (.anon rcx.nextParse) 0 n = some (rep, c) ∧
      r = { rcx with
            edits := rcx.edits ++ [Edit.mk sp rep.getSpan [] TextAdjust.None],
            nextParse := rcx.nextParse + 1 } := by
  simp only [engine, engineStep] at h
  split at h
  · exact absurd h (by simp)
  case h_2 pr rep c heq =>
    split at h
    · exact absurd h (by simp)
    case h_2 inner hi =>
      have h1 := (rf_noTable fuel).1 n rep
        ⟨rcx.table, [], n.getSpan, rcx.nextParse + 1⟩ inner (fun i => ht i) hi
      cases h1
      cases h
      exact ⟨rep, c, heq, rfl⟩

/-! ## The sequence walk across an aligned prefix -/

/-- The span of the last element of `a`, or `prev` when `a` is empty: the
value of `old[i - 1]`'s span after the walk has consumed `a`. -/
def lastSpan (a : List Node) (prev : Option Span) : Option Span :=
  match a.getLast? with
  | some l => some l.getSpan
  | none => prev

theorem lastSpan_cons (o : Node) (a : List Node) (prev : Option Span) :
    lastSpan (o :: a) prev = lastSpan a (some o.getSpan) := by
  cases a with
  | nil => rfl
  | cons b bs =>
    simp only [lastSpan, List.getLast?_cons_cons]
    cases hbl : (b :: bs).getLast? with
    | none => exact absurd hbl (by simp)
    | some l => rfl

/-- Walking `both` steps over a shared prefix `a` either diverges or
continues behind the prefix with an unchanged context and `old[i - 1]` being
the last element of `a`. -/
theorem seqW_both_prefix_of_some :
    ∀ (a : List Node) (fuel : Nat) (rest : List Step) (os2 ns2 : List Node)
      (prev : Option Span) (rcx : RCtx) (p : Bool × RCtx),
      (engine fuel).seqW (List.replicate a.length .both ++ rest)
          (a ++ os2) (a ++ ns2) prev rcx = some p →
      ∃ g, (engine g).seqW rest os2 ns2 (lastSpan a prev) rcx = some p := by
  intro a
  induction a with
  | nil => intro fuel rest os2 ns2 prev rcx p h; exact ⟨fuel, h⟩
  | cons o a2 ih =>
    intro fuel rest os2 ns2 prev rcx p h
    cases fuel with
    | zero => exact absurd h (by simp [engine, engineZero])
    | succ f =>
      rw [lastSpan_cons]
      simp only [List.length_cons, List.replicate_succ, List.cons_append,
        engine, engineStep] at h
      split at h
      · exact absurd h (by simp)
      case h_2 rcx1 heq =>
        cases h
        have := (engine_self_of_some f).1 _ _ _ heq
        rw [Prod.ext_iff] at this
        exact absurd this.1 (by simp)
      case h_3 rcx1 heq =>
        have h1 := (engine_self_of_some f).1 _ _ _ heq
        rw [Prod.ext_iff] at h1
        cases h1.2
        exact ih f rest os2 ns2 (some o.getSpan) rcx p h

/-! ## Claim C4 -/

/-- Insertion point of a new element between the old elements `a` (before
it) and `b` (after it), mirroring the Right arm of the sequence walk: a
zero-width span at the end of the previous old element's span if that span is
rewritable, else at the start of the next old element's span if that is
rewritable, else nothing (the reconciliation fails). -/
def insert_point (a b : List Node) : Option Span :=
  let before := (lastSpan a none).getD DUMMY_SP
  let after := ((b.head?).map Node.getSpan).getD DUMMY_SP
  if is_rewritable before then some (before.withLo before.hi)
  else if is_rewritable after then some (after.withHi after.lo)
  else none

/-- Claim C4: reconciling the old sequence `a ++ b` against the new sequence
`a ++ [x] ++ b`, where `x` is aligned to no old element and all other
elements are unchanged, records exactly one insertion edit (a childless edit
whose target is the zero-width insertion point) and no edits for the other
elements; the insertion point is the end of the previous old element's span,
or the start of the next one's if there is no rewritable previous; if
neither neighbor is rewritable, the whole sequence reconciliation fails with
nothing recorded. -/
theorem claim_c4 (fuel : Nat) (a b : List Node) (x : Node) (rcx : RCtx)
    (out : Bool × RCtx)
    (hx : x.getId ∉ (a ++ b).map Node.getId)
    (ht : ∀ i, rcx.table i = none)
    (h : rewrite_recycled fuel (.seq true (a ++ x :: b)) (.seq true (a ++ b)) rcx =
      some out) :
    (∀ p, insert_point a b = some p →
      span_empty p = true ∧
      ∃ rep, out = (false,
        { rcx with
          edits := rcx.edits ++ [Edit.mk p rep [] TextAdjust.None],
          nextParse := rcx.nextParse + 1 })) ∧
    (insert_point a b = none → out = (true, rcx)) := by
  have hxb : x.getId ∉ b.map Node.getId := by
    simp only [List.map_append, List.mem_append] at hx
    exact fun hc => hx (Or.inr hc)
  cases fuel with
  | zero => exact absurd h (by simp [rewrite_recycled, engine, engineZero])
  | succ f =>
    simp only [rewrite_recycled, engine, engineStep, eq_self_iff_true, if_true] at h
    split at h
    case isTrue hc =>
      -- empty old side: a = [] and b = []
      cases h
      have ha : a = [] := by
        have := hc.1
        simp only [List.length_append] at this
        exact List.length_eq_zero.mp (by omega)
      have hb : b = [] := by
        have := hc.1
        simp only [List.length_append] at this
        exact List.length_eq_zero.mp (by omega)
      subst ha; subst hb
      refine ⟨fun p hp => ?_, fun _ => rfl⟩
      simp [insert_point, lastSpan, is_rewritable] at hp
    case isFalse =>
      rw [show (a ++ x :: b).map Node.getId =
            a.map Node.getId ++ x.getId :: b.map Node.getId by simp,
          show (a ++ b).map Node.getId = a.map Node.getId ++ b.map Node.getId by simp,
          diffSlice_insert _ _ _ hxb,
          show (a.map Node.getId).length = a.length by simp] at h
      obtain ⟨g, hg⟩ := seqW_both_prefix_of_some a f _ b (x :: b) none rcx out h
      cases g with
      | zero => exact absurd hg (by simp [engine, engineZero])
      | succ g2 =>
        simp only [engine, engineStep] at hg
        split at hg
        case isTrue hrw =>
          split at hg
          · exact absurd hg (by simp)
          case h_2 rcx1 heq =>
            cases g2 with
            | zero => exact absurd heq (by simp [engine, engineZero])
            | succ g3 =>
              obtain ⟨rep, c, -, hrcx1⟩ :=
                spRS_noTable g3 x _ rcx rcx1 ht heq
              subst hrcx1
              have hout := (engine_self_of_some (g3 + 1)).2.2
                (b.map Node.getId).length b (lastSpan a none) _ out hg
              subst hout
              refine ⟨fun p hp => ?_, fun hp => ?_⟩
              · rw [show insert_point a b =
                    some (((lastSpan a none).getD DUMMY_SP).withLo
                      ((lastSpan a none).getD DUMMY_SP).hi) from by
                    simp [insert_point, if_pos hrw]] at hp
                cases hp
                exact ⟨by simp [span_empty, Span.withLo], rep.getSpan, rfl⟩
              · rw [show insert_point a b =
                    some (((lastSpan a none).getD DUMMY_SP).withLo
                      ((lastSpan a none).getD DUMMY_SP).hi) from by
                    simp [insert_point, if_pos hrw]] at hp
                exact Option.noConfusion hp
        case isFalse hnrw =>
          split at hg
          case isTrue hrw2 =>
            split at hg
            · exact absurd hg (by simp)
            case h_2 rcx1 heq =>
              cases g2 with
              | zero => exact absurd heq (by simp [engine, engineZero])
              | succ g3 =>
                obtain ⟨rep, c, -, hrcx1⟩ :=
                  spRS_noTable g3 x _ rcx rcx1 ht heq
                subst hrcx1
                have hout := (engine_self_of_some (g3 + 1)).2.2
                  (b.map Node.getId).length b (lastSpan a none) _ out hg
                subst hout
                have hins : insert_point a b =
                    some ((((b.head?).map Node.getSpan).getD DUMMY_SP).withHi
                      (((b.head?).map Node.getSpan).getD DUMMY_SP).lo) := by
                  simp [insert_point, if_neg hnrw, if_pos hrw2]
                refine ⟨fun p hp => ?_, fun hp => ?_⟩
                · rw [hins] at hp
                  cases hp
                  exact ⟨by simp [span_empty, Span.withHi], rep.getSpan, rfl⟩
                · rw [hins] at hp
                  exact Option.noConfusion hp
          case isFalse hnrw2 =>
            cases hg
            have hins : insert_point a b = none := by
              simp [insert_point, if_neg hnrw, if_neg hnrw2]
            exact ⟨fun p hp => absurd (hins ▸ hp) (by simp), fun _ => rfl⟩

/-- Old elements before the insertion point in the C4 witness. -/
def c4w_a : List Node := [.splice 1 ⟨.real 1, 0, 5, 0⟩ 0 []]

/-- Old elements after the insertion point in the C4 witness. -/
def c4w_b : List Node := [.splice 2 ⟨.real 1, 6, 9, 0⟩ 0 []]

/-- The freshly inserted element of the C4 witness. -/
def c4w_x : Node := .splice 9 ⟨.real 2, 0, 3, 0⟩ 0 []

/-- Initial context of the C4 witness (empty log, empty old-node table). -/
def c4w_rcx : RCtx := ⟨fun _ => none, [], DUMMY_SP, 0⟩

/-- Result of the C4 witness run: one insertion edit at the end of the
previous element's span, parse counter bumped. -/
def c4w_out : Bool × RCtx :=
  (false, ⟨fun _ => none,
    [Edit.mk ⟨.real 1, 5, 5, 0⟩ ⟨.anon 0, 0, 2, 0⟩ [] TextAdjust.None], DUMMY_SP, 1⟩)

/-- Witness for C4: a concrete two-element sequence with one fresh element
inserted between them. -/
theorem claim_c4_witness :
    c4w_x.getId ∉ (c4w_a ++ c4w_b).map Node.getId ∧
    rewrite_recycled 20 (.seq true (c4w_a ++ c4w_x :: c4w_b))
      (.seq true (c4w_a ++ c4w_b)) c4w_rcx = some c4w_out ∧
    insert_point c4w_a c4w_b = some ⟨.real 1, 5, 5, 0⟩ ∧
    (span_empty (⟨.real 1, 5, 5, 0⟩ : Span) = true ∧
      ∃ rep, c4w_out = (false,
        { c4w_rcx with
          edits := c4w_rcx.edits ++
            [Edit.mk ⟨.real 1, 5, 5, 0⟩ rep [] TextAdjust.None],
          nextParse := c4w_rcx.nextParse + 1 })) :=
  ⟨by decide, rfl, rfl,
   (claim_c4 20 c4w_a c4w_b c4w_x c4w_rcx c4w_out (by decide) (fun _ => rfl) rfl).1
     ⟨.real 1, 5, 5, 0⟩ rfl⟩

/-! ## Well-formed old trees and the non-overlap invariant

The old tree is freshly parsed from the source, so its spans are well
nested: every span lies in the source file within the parent's extent, the
children of a splice point lie within its span, sibling subtrees occupy
ordered sub-intervals, and the elements of a supported sequence are splice
points (they have ids and spans). -/

mutual

inductive WF (F : FName) : Nat → Nat → Node → Prop where
  | leaf (lo hi v : Nat) : lo ≤ hi → WF F lo hi (.leaf v)
  | node (lo hi k : Nat) (args : List Node) :
      WFL F lo hi args → WF F lo hi (.node k args)
  | splice (lo hi i : Nat) (sp : Span) (k : Nat) (args : List Node) :
      sp.file = F → lo ≤ sp.lo → sp.lo ≤ sp.hi → sp.hi ≤ hi →
      WFL F sp.lo sp.hi args → WF F lo hi (.splice i sp k args)
  | seq (lo hi : Nat) (sup : Bool) (elems : List Node) :
      (sup = true → elems.all Node.isSplicePt = true) →
      WFL F lo hi elems → WF F lo hi (.seq sup elems)

inductive WFL (F : FName) : Nat → Nat → List Node → Prop where
  | nil (lo hi : Nat) : lo ≤ hi → WFL F lo hi []
  | cons (lo m hi : Nat) (x : Node) (xs : List Node) :
      WF F lo m x → WFL F m hi xs → WFL F lo hi (x :: xs)

end

mutual

theorem WF_le {F : FName} {lo hi : Nat} {n : Node} (h : WF F lo hi n) : lo ≤ hi :=
  match h with
  | .leaf _ _ _ h1 => h1
  | .node _ _ _ _ h1 => WFL_le h1
  | .splice _ _ _ _ _ _ _ h2 h3 h4 _ => le_trans h2 (le_trans h3 h4)
  | .seq _ _ _ _ _ h2 => WFL_le h2

theorem WFL_le {F : FName} {lo hi : Nat} {l : List Node} (h : WFL F lo hi l) : lo ≤ hi :=
  match h with
  | .nil _ _ h1 => h1
  | .cons _ _ _ _ _ hx hxs => le_trans (WF_le hx) (WFL_le hxs)

end

/-- Every target span in `es` lies in file `F` within `[lo, hi]`. -/
def targetsOk (F : FName) (lo hi : Nat) (es : List Edit) : Prop :=
  ∀ e ∈ es, e.target.file = F ∧ lo ≤ e.target.lo ∧
    e.target.lo ≤ e.target.hi ∧ e.target.hi ≤ hi

/-- No two edits' target spans overlap. -/
def pairwiseDisjoint (es : List Edit) : Prop :=
  List.Pairwise (fun e1 e2 => ¬ Span.overlaps e1.target e2.target) es

theorem targetsOk_nil (F : FName) (lo hi : Nat) : targetsOk F lo hi [] := by
  intro e he; cases he

theorem targetsOk_mono {F : FName} {lo hi lo' hi' : Nat} {es : List Edit}
    (h1 : lo' ≤ lo) (h2 : hi ≤ hi') (h : targetsOk F lo hi es) :
    targetsOk F lo' hi' es := by
  intro e he
  obtain ⟨ha, hb, hc, hd⟩ := h e he
  exact ⟨ha, by omega, hc, by omega⟩

theorem not_overlaps_of_sep {s t : Span} (h : s.hi ≤ t.lo ∨ t.hi ≤ s.lo) :
    ¬ Span.overlaps s t := by
  rintro ⟨-, hlt⟩
  omega

/-- Concatenating an edit set that lives in `[lo, m]` with one in `[m, hi]`
keeps targets in range and pairwise disjoint. -/
theorem ok_append {F : FName} {lo m hi : Nat} {es1 es2 : List Edit}
    (h1 : targetsOk F lo m es1) (h2 : targetsOk F m hi es2)
    (p1 : pairwiseDisjoint es1) (p2 : pairwiseDisjoint es2)
    (hlm : lo ≤ m) (hmh : m ≤ hi) :
    targetsOk F lo hi (es1 ++ es2) ∧ pairwiseDisjoint (es1 ++ es2) := by
  constructor
  · intro e he
    rcases List.mem_append.mp he with he1 | he2
    · exact targetsOk_mono le_rfl hmh h1 e he1
    · exact targetsOk_mono hlm le_rfl h2 e he2
  · rw [pairwiseDisjoint, List.pairwise_append]
    refine ⟨p1, p2, fun e1 he1 e2 he2 => ?_⟩
    obtain ⟨-, -, -, hd1⟩ := h1 e1 he1
    obtain ⟨-, hb2, -, -⟩ := h2 e2 he2
    exact not_overlaps_of_sep (Or.inl (le_trans hd1 hb2))

/-- Invariant for `old[i - 1]`'s span during the sequence walk: it points
into the source file and ends at or before the current position. -/
def prevOk (F : FName) (lo0 cur : Nat) (prev : Option Span) : Prop :=
  ∀ s, prev = some s → s.file = F ∧ lo0 ≤ s.hi ∧ s.hi ≤ cur

/-- The top-level edits appended by a recycled reconciliation against a
well-formed old tree target the old tree's interval, pairwise
non-overlapping. -/
theorem engine_nonoverlap : ∀ fuel : Nat,
    (∀ F lo hi new old rcx p, WF F lo hi old →
      (engine fuel).rr new old rcx = some p →
      ∃ es, p.2.edits = rcx.edits ++ es ∧ targetsOk F lo hi es ∧ pairwiseDisjoint es) ∧
    (∀ F lo hi l1 l2 rcx p, WFL F lo hi l2 →
      (engine fuel).rrL l1 l2 rcx = some p →
      ∃ es, p.2.edits = rcx.edits ++ es ∧ targetsOk F lo hi es ∧ pairwiseDisjoint es) ∧
    (∀ F lo0 cur hi steps olds news prev rcx p,
      WFL F cur hi olds → olds.all Node.isSplicePt = true →
      prevOk F lo0 cur prev → lo0 ≤ cur →
      (engine fuel).seqW steps olds news prev rcx = some p →
      ∃ es, p.2.edits = rcx.edits ++ es ∧ targetsOk F lo0 hi es ∧ pairwiseDisjoint es ∧
        ∀ e ∈ es, e.target.lo ≠ e.target.hi → cur ≤ e.target.lo) ∧
    (∀ F lo hi new old rcx r, WF F lo hi old →
      (engine fuel).spR new old rcx = some r →
      ∃ es, r.edits = rcx.edits ++ es ∧ targetsOk F lo hi es ∧ pairwiseDisjoint es) := by
  intro fuel
  induction fuel with
  | zero =>
    refine ⟨?_, ?_, ?_, ?_⟩ <;> intros <;> simp_all [engine, engineZero]
  | succ f ih =>
    obtain ⟨ih_rr, ih_rrL, ih_seqW, ih_spR⟩ := ih
    refine ⟨?_, ?_, ?_, ?_⟩
    · -- rewrite_recycled
      intro F lo hi new old rcx p hwf h
      rcases new with v1 | ⟨k1, a1⟩ | ⟨i1, sp1, k1, a1⟩ | ⟨s1, e1⟩ <;>
        rcases old with v2 | ⟨k2, a2⟩ | ⟨i2, sp2, k2, a2⟩ | ⟨s2, e2⟩ <;>
        simp only [engine, engineStep] at h
      all_goals try exact Option.noConfusion h
      · -- leaf / leaf
        cases h
        exact ⟨[], by simp, targetsOk_nil F lo hi, List.Pairwise.nil⟩
      · -- node / node
        cases hwf with
        | node _ _ _ _ hargs =>
          split at h
          · exact ih_rrL F lo hi a1 a2 rcx p hargs h
          · cases h
            exact ⟨[], by simp, targetsOk_nil F lo hi, List.Pairwise.nil⟩
      · -- splice / splice
        cases hwf with
        | splice _ _ _ _ _ _ hfile hlo hsp hhi hargs =>
          split at h
          · exact Option.noConfusion h
          case h_2 rcx1 heq =>
            cases h
            split at heq
            · obtain ⟨es, hes, hok, hpw⟩ := ih_rrL F sp2.lo sp2.hi a1 a2 rcx _ hargs heq
              exact ⟨es, hes, targetsOk_mono hlo hhi hok, hpw⟩
            · simp at heq
          case h_3 rcx1 heq =>
            have hed1 : ∃ ds, rcx1.edits = rcx.edits ++ ds := by
              split at heq
              · obtain ⟨ds, hds, -, -⟩ := ih_rrL F sp2.lo sp2.hi a1 a2 rcx _ hargs heq
                exact ⟨ds, hds⟩
              · cases heq
                exact ⟨[], by simp⟩
            obtain ⟨ds, hds⟩ := hed1
            split at h
            · exact Option.noConfusion h
            case h_2 r hr =>
              cases h
              obtain ⟨es, hes, hok, hpw⟩ := ih_spR F lo hi _ _ _ r
                (WF.splice lo hi i2 sp2 k2 a2 hfile hlo hsp hhi hargs) hr
              refine ⟨es, ?_, hok, hpw⟩
              rw [hes]
              simp only [hds, List.take_left]
      · -- seq / seq
        cases hwf with
        | seq _ _ _ _ hall hWFL =>
          split at h
          case isFalse => exact Option.noConfusion h
          case isTrue hsup =>
            split at h
            case isTrue hsup1 =>
              split at h
              · cases h
                exact ⟨[], by simp, targetsOk_nil F lo hi, List.Pairwise.nil⟩
              · obtain ⟨es, hes, hok, hpw, -⟩ :=
                  ih_seqW F lo lo hi _ e2 e1 none rcx p hWFL
                    (hall (hsup ▸ hsup1)) (fun s hs => Option.noConfusion hs) le_rfl h
                exact ⟨es, hes, hok, hpw⟩
            case isFalse =>
              split at h
              · exact ih_rrL F lo hi e1 e2 rcx p hWFL h
              · cases h
                exact ⟨[], by simp, targetsOk_nil F lo hi, List.Pairwise.nil⟩
    · -- positional list walk
      intro F lo hi l1 l2 rcx p hwl h
      rcases l1 with _ | ⟨x, xs⟩ <;> rcases l2 with _ | ⟨y, ys⟩ <;>
        simp only [engine, engineStep] at h
      · cases h
        exact ⟨[], by simp, targetsOk_nil F lo hi, List.Pairwise.nil⟩
      · cases h
        exact ⟨[], by simp, targetsOk_nil F lo hi, List.Pairwise.nil⟩
      · cases h
        exact ⟨[], by simp, targetsOk_nil F lo hi, List.Pairwise.nil⟩
      · cases hwl with
        | cons _ m _ _ _ hy hys =>
          split at h
          · exact Option.noConfusion h
          case h_2 rcx1 heq =>
            cases h
            obtain ⟨es, hes, hok, hpw⟩ := ih_rr F lo m x y rcx _ hy heq
            exact ⟨es, hes, targetsOk_mono le_rfl (WFL_le hys) hok, hpw⟩
          case h_3 rcx1 heq =>
            obtain ⟨es1, hes1, hok1, hpw1⟩ := ih_rr F lo m x y rcx _ hy heq
            obtain ⟨es2, hes2, hok2, hpw2⟩ := ih_rrL F m hi xs ys rcx1 p hys h
            obtain ⟨hokA, hpwA⟩ := ok_append hok1 hok2 hpw1 hpw2 (WF_le hy) (WFL_le hys)
            exact ⟨es1 ++ es2, by rw [hes2, hes1, List.append_assoc], hokA, hpwA⟩
    · -- sequence walk
      intro F lo0 cur hi steps olds news prev rcx p hwl hall hprev hlc h
      rcases steps with _ | ⟨st, rest⟩
      · simp only [engine, engineStep] at h
        cases h
        exact ⟨[], by simp, targetsOk_nil F lo0 hi, List.Pairwise.nil, by simp⟩
      · rcases st with _ | _ | _ <;> simp only [engine, engineStep] at h
        · -- left: deletion
          rcases olds with _ | ⟨o, os⟩ <;> simp only at h
          · exact Option.noConfusion h
          · have hosp : o.isSplicePt = true := by
              simp only [List.all_cons, Bool.and_eq_true] at hall
              exact hall.1
            rcases o with v | _ | ⟨oi, osp, ok, oargs⟩ | _ <;>
              simp [Node.isSplicePt] at hosp
            simp only [Node.getSpan] at h
            cases hwl with
            | cons _ m _ _ _ ho hos =>
              cases ho with
              | splice _ _ _ _ _ _ hfile hlo hsp hhi _ =>
                obtain ⟨es1, hes1, hok1, hpw1, hcur1⟩ :=
                  ih_seqW F lo0 m hi rest os news (some osp) _ p hos
                    (by simp only [List.all_cons, Bool.and_eq_true] at hall; exact hall.2)
                    (by intro s hs; cases hs; exact ⟨hfile, by omega, by omega⟩)
                    (by omega) h
                refine ⟨Edit.mk osp DUMMY_SP [] TextAdjust.None :: es1, ?_, ?_, ?_, ?_⟩
                · rw [hes1]
                  simp [RCtx.record]
                · intro e he
                  rcases List.mem_cons.mp he with he1 | he2
                  · subst he1
                    simp only [Edit.target_mk]
                    exact ⟨hfile, by omega, hsp, le_trans hhi (WFL_le hos)⟩
                  · exact hok1 e he2
                · refine List.Pairwise.cons (fun e2 he2 => ?_) hpw1
                  by_cases hemp : e2.target.lo = e2.target.hi
                  · exact not_overlaps_of_empty_right hemp
                  · refine not_overlaps_of_sep (Or.inl ?_)
                    simp only [Edit.target_mk]
                    exact le_trans hhi (hcur1 e2 he2 hemp)
                · intro e he hne
                  rcases List.mem_cons.mp he with he1 | he2
                  · subst he1
                    simpa only [Edit.target_mk] using hlo
                  · exact le_trans (by omega) (hcur1 e he2 hne)
        · -- right: insertion
          rcases news with _ | ⟨n, ns⟩ <;> simp only at h
          · exact Option.noConfusion h
          · split at h
            case isTrue hrwb =>
              rcases prev with _ | s
              · exact absurd hrwb (by decide)
              · obtain ⟨hsf, hslo0, hshi⟩ := hprev s rfl
                simp only [Option.getD_some] at h
                split at h
                · exact Option.noConfusion h
                case h_2 rcx1 heq =>
                  obtain ⟨⟨rep, ch, hed1⟩, -⟩ :=
                    splice_recycled_span_edits f n _ rcx rcx1 heq
                  obtain ⟨es1, hes1, hok1, hpw1, hcur1⟩ :=
                    ih_seqW F lo0 cur hi rest olds ns (some s) rcx1 p hwl hall hprev hlc h
                  refine ⟨Edit.mk (s.withLo s.hi) rep ch TextAdjust.None :: es1,
                    ?_, ?_, ?_, ?_⟩
                  · rw [hes1, hed1, List.append_assoc]
                    rfl
                  · intro e he
                    rcases List.mem_cons.mp he with he1 | he2
                    · subst he1
                      simp only [Edit.target_mk, Span.withLo]
                      exact ⟨hsf, hslo0, le_rfl, le_trans hshi (WFL_le hwl)⟩
                    · exact hok1 e he2
                  · exact List.Pairwise.cons
                      (fun e2 _ => not_overlaps_of_empty_left
                        (by simp [Edit.target_mk, Span.withLo])) hpw1
                  · intro e he hne
                    rcases List.mem_cons.mp he with he1 | he2
                    · subst he1
                      simp [Edit.target_mk, Span.withLo] at hne
                    · exact hcur1 e he2 hne
            case isFalse =>
              split at h
              case isTrue hrwa =>
                rcases olds with _ | ⟨o, os⟩
                · exact absurd hrwa (by decide)
                · have hosp : o.isSplicePt = true := by
                    simp only [List.all_cons, Bool.and_eq_true] at hall
                    exact hall.1
                  rcases o with v | _ | ⟨oi, osp, ok, oargs⟩ | _ <;>
                    simp [Node.isSplicePt] at hosp
                  simp only [List.head?_cons, Option.map_some', Option.getD_some,
                    Node.getSpan] at h
                  have hspfacts : osp.file = F ∧ cur ≤ osp.lo ∧ osp.lo ≤ osp.hi ∧
                      osp.hi ≤ hi := by
                    cases hwl with
                    | cons _ m _ _ _ ho hos =>
                      cases ho with
                      | splice _ _ _ _ _ _ hfile hlo hsp hhi _ =>
                        exact ⟨hfile, hlo, hsp, le_trans hhi (WFL_le hos)⟩
                  obtain ⟨hfile, hclo, hsp, hshi⟩ := hspfacts
                  split at h
                  · exact Option.noConfusion h
                  case h_2 rcx1 heq =>
                    obtain ⟨⟨rep, ch, hed1⟩, -⟩ :=
                      splice_recycled_span_edits f n _ rcx rcx1 heq
                    obtain ⟨es1, hes1, hok1, hpw1, hcur1⟩ :=
                      ih_seqW F lo0 cur hi rest _ ns prev rcx1 p hwl hall hprev hlc h
                    refine ⟨Edit.mk (osp.withHi osp.lo) rep ch TextAdjust.None :: es1,
                      ?_, ?_, ?_, ?_⟩
                    · rw [hes1, hed1, List.append_assoc]
                      rfl
                    · intro e he
                      rcases List.mem_cons.mp he with he1 | he2
                      · subst he1
                        simp only [Edit.target_mk, Span.withHi]
                        exact ⟨hfile, by omega, le_rfl, by omega⟩
                      · exact hok1 e he2
                    · exact List.Pairwise.cons
                        (fun e2 _ => not_overlaps_of_empty_left
                          (by simp [Edit.target_mk, Span.withHi])) hpw1
                    · intro e he hne
                      rcases List.mem_cons.mp he with he1 | he2
                      · subst he1
                        simp [Edit.target_mk, Span.withHi] at hne
                      · exact hcur1 e he2 hne
              case isFalse =>
                cases h
                exact ⟨[], by simp, targetsOk_nil F lo0 hi, List.Pairwise.nil, by simp⟩
        · -- both: aligned element
          rcases olds with _ | ⟨o, os⟩ <;> rcases news with _ | ⟨n, ns⟩ <;> simp only at h
          · exact Option.noConfusion h
          · exact Option.noConfusion h
          · exact Option.noConfusion h
          · have hosp : o.isSplicePt = true := by
              simp only [List.all_cons, Bool.and_eq_true] at hall
              exact hall.1
            cases hwl with
            | cons _ m _ _ _ ho hos =>
              split at h
              · exact Option.noConfusion h
              case h_2 rcx1 heq =>
                cases h
                obtain ⟨es1, hes1, hok1, hpw1⟩ := ih_rr F cur m n o rcx _ ho heq
                refine ⟨es1, hes1, targetsOk_mono hlc (WFL_le hos) hok1, hpw1, ?_⟩
                intro e he hne
                exact (hok1 e he).2.1
              case h_3 rcx1 heq =>
                obtain ⟨es1, hes1, hok1, hpw1⟩ := ih_rr F cur m n o rcx _ ho heq
                have hcm : cur ≤ m := WF_le ho
                have hspfacts : o.getSpan.file = F ∧ cur ≤ o.getSpan.lo ∧
                    o.getSpan.lo ≤ o.getSpan.hi ∧ o.getSpan.hi ≤ m := by
                  rcases o with v | _ | ⟨oi, osp, ok, oargs⟩ | _ <;>
                    simp [Node.isSplicePt] at hosp
                  cases ho with
                  | splice _ _ _ _ _ _ hfile hlo hsp hhi _ =>
                    exact ⟨hfile, hlo, hsp, hhi⟩
                obtain ⟨hfile, hclo, hsp, hshi⟩ := hspfacts
                obtain ⟨es2, hes2, hok2, hpw2, hcur2⟩ :=
                  ih_seqW F lo0 m hi rest os ns (some o.getSpan) rcx1 p hos
                    (by simp only [List.all_cons, Bool.and_eq_true] at hall; exact hall.2)
                    (by intro s hs; cases hs; exact ⟨hfile, by omega, by omega⟩)
                    (by omega) h
                refine ⟨es1 ++ es2, by rw [hes2, hes1, List.append_assoc], ?_, ?_, ?_⟩
                · intro e he
                  rcases List.mem_append.mp he with he1 | he2
                  · exact targetsOk_mono hlc (WFL_le hos) hok1 e he1
                  · exact hok2 e he2
                · rw [pairwiseDisjoint, List.pairwise_append]
                  refine ⟨hpw1, hpw2, fun e1 he1 e2 he2 => ?_⟩
                  by_cases hemp : e2.target.lo = e2.target.hi
                  · exact not_overlaps_of_empty_right hemp
                  · obtain ⟨-, -, -, hd1⟩ := hok1 e1 he1
                    exact not_overlaps_of_sep (Or.inl (le_trans hd1 (hcur2 e2 he2 hemp)))
                · intro e he hne
                  rcases List.mem_append.mp he with he1 | he2
                  · exact (hok1 e he1).2.1
                  · exact le_trans hcm (hcur2 e he2 hne)
    · -- splice_recycled
      intro F lo hi new old rcx r hwf h
      simp only [engine, engineStep] at h
      split at h
      case isTrue hrw =>
        obtain ⟨⟨rep, ch, hed⟩, -⟩ := splice_recycled_span_edits f new _ rcx r h
        rcases old with v | ⟨k, args⟩ | ⟨oi, osp, ok, oargs⟩ | ⟨su, el⟩
        · exact absurd hrw (by rw [show Node.getSpan (.leaf v) = DUMMY_SP from rfl]; decide)
        · exact absurd hrw
            (by rw [show Node.getSpan (.node k args) = DUMMY_SP from rfl]; decide)
        · cases hwf with
          | splice _ _ _ _ _ _ hfile hlo hsp hhi _ =>
            refine ⟨[Edit.mk (Node.getSpan (.splice oi osp ok oargs)) rep ch
              TextAdjust.None], hed, ?_, ?_⟩
            · intro e he
              rcases List.mem_singleton.mp he with rfl
              exact ⟨hfile, hlo, hsp, hhi⟩
            · exact List.Pairwise.cons (fun e2 he2 => absurd he2 (List.not_mem_nil _))
                List.Pairwise.nil
        · exact absurd hrw
            (by rw [show Node.getSpan (.seq su el) = DUMMY_SP from rfl]; decide)
      case isFalse =>
        cases h
        exact ⟨[], by simp, targetsOk_nil F lo hi, List.Pairwise.nil⟩

/-! ## Claim C3 -/

/-- Claim C3: for any complete recycled reconciliation pass over a
well-formed old tree (spans well nested in the source file `F`, within
`[0, len]`), starting from an empty log, the produced edit set has pairwise
non-overlapping target spans, and every target span lies in `F` within the
bounds `[0, len]` of the original source file. -/
theorem claim_c3 (fuel : Nat) (F : FName) (len : Nat) (new old : Node)
    (rcx0 : RCtx) (p : Bool × RCtx)
    (hwf : WF F 0 len old)
    (hstart : rcx0.edits = [])
    (h : rewrite_recycled fuel new old rcx0 = some p) :
    pairwiseDisjoint p.2.edits ∧
    ∀ e ∈ p.2.edits, e.target.file = F ∧ e.target.lo ≤ e.target.hi ∧
      e.target.hi ≤ len := by
  obtain ⟨es, hes, hok, hpw⟩ :=
    (engine_nonoverlap fuel).1 F 0 len new old rcx0 p hwf h
  rw [hstart, List.nil_append] at hes
  refine ⟨by rw [hes]; exact hpw, ?_⟩
  intro e he
  rw [hes] at he
  obtain ⟨h1, -, h3, h4⟩ := hok e he
  exact ⟨h1, h3, h4⟩

/-- Well-formedness of the C3 witness's old tree. -/
theorem c3w_wf : WF (.real 1) 0 10 (.splice 1 ⟨.real 1, 0, 10, 0⟩ 0 [.leaf 6]) :=
  WF.splice 0 10 1 ⟨.real 1, 0, 10, 0⟩ 0 [.leaf 6] rfl (by decide) (by decide) (by decide)
    (WFL.cons 0 10 10 (.leaf 6) [] (WF.leaf 0 10 6 (by decide)) (WFL.nil 10 10 (by decide)))

/-- Witness for C3: a reconciliation that switches one node to fresh mode
produces a single in-bounds edit. -/
theorem claim_c3_witness :
    RCtx.edits ⟨fun _ => none, [], DUMMY_SP, 0⟩ = [] ∧
    rewrite_recycled 9 (.splice 1 ⟨.real 1, 0, 10, 0⟩ 0 [.leaf 5])
      (.splice 1 ⟨.real 1, 0, 10, 0⟩ 0 [.leaf 6]) ⟨fun _ => none, [], DUMMY_SP, 0⟩ =
      some (false, ⟨fun _ => none,
        [.mk ⟨.real 1, 0, 10, 0⟩ ⟨.anon 0, 0, 2, 0⟩ [] .None], DUMMY_SP, 1⟩) ∧
    (pairwiseDisjoint
        [Edit.mk ⟨.real 1, 0, 10, 0⟩ ⟨.anon 0, 0, 2, 0⟩ [] TextAdjust.None] ∧
      ∀ e ∈ [Edit.mk ⟨.real 1, 0, 10, 0⟩ ⟨.anon 0, 0, 2, 0⟩ [] TextAdjust.None],
        e.target.file = FName.real 1 ∧ e.target.lo ≤ e.target.hi ∧ e.target.hi ≤ 10) :=
  ⟨rfl, rfl,
   claim_c3 9 (.real 1) 10 (.splice 1 ⟨.real 1, 0, 10, 0⟩ 0 [.leaf 5])
     (.splice 1 ⟨.real 1, 0, 10, 0⟩ 0 [.leaf 6]) ⟨fun _ => none, [], DUMMY_SP, 0⟩
     (false, ⟨fun _ => none,
       [.mk ⟨.real 1, 0, 10, 0⟩ ⟨.anon 0, 0, 2, 0⟩ [] .None], DUMMY_SP, 1⟩)
     c3w_wf rfl rfl⟩

/-! ## Claim C1 (corrected) -/

/-- Claim C1, amended: if the old node's span is not rewritable (the
synthetic empty span, or a non-default hygiene context), `splice_recycled`
gives up without recording any edit and leaves the context unchanged; hence
every edit recorded by a recycled-to-fresh switch targets the rewritable span
of the old node.  (The original claim's further conclusion that a node with a
non-default hygiene context is never the target of *any* edit is refuted by
`claim_c1_counterexample`: sequence deletion edits are recorded without a
rewritability check.) -/
theorem claim_c1 (fuel : Nat) (new old : Node) (rcx r : RCtx) :
    (is_rewritable old.getSpan = false →
      splice_recycled (fuel + 1) new old rcx = some rcx) ∧
    (splice_recycled (fuel + 1) new old rcx = some r →
      r.edits = rcx.edits ∨
      (is_rewritable old.getSpan = true ∧
        ∃ rep ch, r.edits = rcx.edits ++ [Edit.mk old.getSpan rep ch .None])) := by
  constructor
  · intro hnr
    simp [splice_recycled, engine, engineStep, hnr]
  · intro h
    simp only [splice_recycled, engine, engineStep] at h
    split at h
    case isTrue hrw =>
      exact Or.inr ⟨hrw, (splice_recycled_span_edits fuel _ _ _ _ h).1⟩
    case isFalse =>
      cases h
      exact Or.inl rfl

/-- Witness for the amended C1: a node whose span has hygiene context 1 is
not rewritable, and `splice_recycled` leaves the context untouched on it. -/
theorem claim_c1_witness :
    is_rewritable (Node.getSpan (.splice 7 ⟨.real 1, 4, 9, 1⟩ 0 [])) = false ∧
    splice_recycled 5 (.leaf 0) (.splice 7 ⟨.real 1, 4, 9, 1⟩ 0 [])
      ⟨fun _ => none, [], DUMMY_SP, 0⟩ = some ⟨fun _ => none, [], DUMMY_SP, 0⟩ :=
  ⟨by decide,
   (claim_c1 4 (.leaf 0) (.splice 7 ⟨.real 1, 4, 9, 1⟩ 0 [])
     ⟨fun _ => none, [], DUMMY_SP, 0⟩ ⟨fun _ => none, [], DUMMY_SP, 0⟩).1 (by decide)⟩

/-- Counterexample to C1 as stated: reconciling the statement sequence
`[s]` (where `s`'s span has the non-default hygiene context 1) against the
empty new sequence succeeds and records a deletion edit whose target is
exactly `s`'s macro-generated span — so a node whose span has a non-default
hygiene context *can* be the target of an edit. -/
theorem claim_c1_counterexample :
    rewrite_recycled 5 (.seq true []) (.seq true [.splice 7 ⟨.real 1, 4, 9, 1⟩ 0 []])
      ⟨fun _ => none, [], DUMMY_SP, 0⟩ =
      some (false,
        ⟨fun _ => none, [.mk ⟨.real 1, 4, 9, 1⟩ DUMMY_SP [] .None], DUMMY_SP, 0⟩) ∧
    Node.getSpan (.splice 7 ⟨.real 1, 4, 9, 1⟩ 0 []) = ⟨.real 1, 4, 9, 1⟩ ∧
    Span.ctxt ⟨.real 1, 4, 9, 1⟩ ≠ 0 :=
  ⟨rfl, rfl, by decide⟩

/-! ## Claim C2 -/

/-- Claim C2: `splice_fresh` records a reversion edit (replacing the
reparsed placeholder's span by the matched old node's span) exactly when the
new node's span differs from the context's fresh-start span, its id is found
in the old-node table, the matched old span is rewritable, the old file is
not a macro-expansion pseudo-file, and the nested recycled reconciliation
(run against a scratch log, under a transactional mark) succeeds; when
instead it returns `false` the edit log is left exactly as it was. -/
theorem claim_c2 (fuel : Nat) (new reparsed : Node) (rcx : RCtx) (flag : Bool) (r : RCtx)
    (h : splice_fresh (fuel + 1) new reparsed rcx = some (flag, r)) :
    (flag = true ↔
      (new.getSpan ≠ rcx.freshStart ∧
        ∃ old, rcx.table new.getId = some old ∧
          is_rewritable old.getSpan = true ∧
          (∀ m, old.getSpan.file ≠ .macros m) ∧
          ∃ inner, (engine fuel).rr new old { rcx with edits := [] } = some (false, inner) ∧
            r = { inner with
                  edits := rcx.edits ++
                    [.mk reparsed.getSpan old.getSpan inner.edits .None] })) ∧
    (flag = false → r.edits = rcx.edits) := by
  simp only [splice_fresh, engine, engineStep] at h
  split at h
  case isTrue hfs =>
    cases h
    exact ⟨by simp [hfs], fun _ => rfl⟩
  case isFalse hfs =>
    split at h
    case h_1 hl =>
      cases h
      refine ⟨⟨fun hc => absurd hc (by simp), fun hc => ?_⟩, fun _ => rfl⟩
      obtain ⟨-, old, hold, -⟩ := hc
      rw [hl] at hold
      exact Option.noConfusion hold
    case h_2 old hl =>
      split at h
      case isFalse hnrw =>
        cases h
        refine ⟨⟨fun hc => absurd hc (by simp), fun hc => ?_⟩, fun _ => rfl⟩
        obtain ⟨-, old2, hold2, hrw2, -⟩ := hc
        rw [hl] at hold2
        cases hold2
        exact absurd hrw2 hnrw
      case isTrue hrw =>
        split at h
        case h_1 m hm =>
          cases h
          refine ⟨⟨fun hc => absurd hc (by simp), fun hc => ?_⟩, fun _ => rfl⟩
          obtain ⟨-, old2, hold2, -, hnm2, -⟩ := hc
          rw [hl] at hold2
          cases hold2
          exact (hnm2 m hm).elim
        case h_2 hfile =>
          split at h
          · exact absurd h (by simp)
          case h_2 inner hrr =>
            cases h
            refine ⟨⟨fun hc => absurd hc (by simp), fun hc => ?_⟩, fun _ => rfl⟩
            obtain ⟨-, old2, hold2, -, -, inner2, hrr2, -⟩ := hc
            rw [hl] at hold2
            cases hold2
            rw [hrr] at hrr2
            simp at hrr2
          case h_3 inner hrr =>
            cases h
            refine ⟨⟨fun _ => ?_, fun _ => rfl⟩, fun hc => absurd hc (by simp)⟩
            refine ⟨hfs, old, hl, hrw, ?_, inner, hrr, rfl⟩
            intro m hm
            rw [hm] at hfile
            exact hfile m rfl

/-- Old-node table for the C2 witness: id 5 maps to a rewritable splice in a
real file. -/
def c2w_tbl : Nat → Option Node :=
  fun i => if i = 5 then some (.splice 5 ⟨.real 1, 2, 7, 0⟩ 0 []) else none

/-- The new node for the C2 witness. -/
def c2w_new : Node := .splice 5 ⟨.real 1, 20, 25, 0⟩ 0 []

/-- The reparsed placeholder for the C2 witness. -/
def c2w_rep : Node := .splice 5 ⟨.anon 9, 0, 1, 0⟩ 0 []

/-- The input context for the C2 witness. -/
def c2w_rcx : RCtx := ⟨c2w_tbl, [], ⟨.real 1, 0, 99, 0⟩, 0⟩

/-- The output context for the C2 witness: the reversion edit was recorded. -/
def c2w_out : RCtx :=
  ⟨c2w_tbl, [.mk ⟨.anon 9, 0, 1, 0⟩ ⟨.real 1, 2, 7, 0⟩ [] .None], ⟨.real 1, 0, 99, 0⟩, 0⟩

/-- Witness for C2: a concrete successful reversion.  The new node's span
differs from the fresh-start span, its id 5 is in the table with a
rewritable old span in a real file, and the nested recycled reconciliation
succeeds, so the reversion edit is recorded. -/
theorem claim_c2_witness :
    splice_fresh 6 c2w_new c2w_rep c2w_rcx = some (true, c2w_out) ∧
    (c2w_new.getSpan ≠ c2w_rcx.freshStart ∧
      ∃ old, c2w_rcx.table c2w_new.getId = some old ∧
        is_rewritable old.getSpan = true ∧
        (∀ m, old.getSpan.file ≠ .macros m) ∧
        ∃ inner, (engine 5).rr c2w_new old { c2w_rcx with edits := [] } = some (false, inner) ∧
          c2w_out = { inner with
            edits := c2w_rcx.edits ++ [.mk c2w_rep.getSpan old.getSpan inner.edits .None] }) :=
  ⟨rfl, (claim_c2 5 c2w_new c2w_rep c2w_rcx true c2w_out rfl).1.mp rfl⟩

/-! ## Claim C9 -/

/-- Claim C9: `splice_recycled_span` restores the fresh-start span — it is
set to the new node's span exactly for the duration of the nested fresh-mode
rewrite (whose input context carries `freshStart = new.getSpan`) and equals
its old value afterwards; apart from the appended edit (and codemap growth)
the context is unchanged: the old-node table is untouched. -/
theorem claim_c9 (fuel : Nat) (new : Node) (old_span : Span) (rcx r : RCtx)
    (h : splice_recycled_span (fuel + 1) new old_span rcx = some r) :
    r.freshStart = rcx.freshStart ∧
    r.table = rcx.table ∧
    (∃ e, r.edits = rcx.edits ++ [e]) ∧
    (∃ reparsed c inner,
      (engine fuel).renum (.anon rcx.nextParse) 0 new = some (reparsed, c) ∧
      (engine fuel).rf new reparsed
        { rcx with edits := [], freshStart := new.getSpan,
                   nextParse := rcx.nextParse + 1 } = some inner ∧
      r = { inner with
            edits := rcx.edits ++ [.mk old_span reparsed.getSpan inner.edits .None],
            freshStart := rcx.freshStart }) := by
  simp only [splice_recycled_span, engine, engineStep] at h
  split at h
  · exact absurd h (by simp)
  case h_2 pr reparsed c hr =>
    split at h
    · exact absurd h (by simp)
    case h_2 inner hi =>
      cases h
      refine ⟨rfl, ?_, ⟨_, rfl⟩, reparsed, c, inner, hr, hi, rfl⟩
      simpa using (table_frame fuel).2.2.2.2.2.2.1 _ _ _ _ hi

/-- Witness for C9: a concrete `splice_recycled_span` call whose resulting
context has the original fresh-start span. -/
theorem claim_c9_witness :
    splice_recycled_span 5 (.leaf 3) ⟨.real 1, 0, 2, 0⟩ ⟨fun _ => none, [], DUMMY_SP, 0⟩ =
      some ⟨fun _ => none, [.mk ⟨.real 1, 0, 2, 0⟩ DUMMY_SP [] .None], DUMMY_SP, 1⟩ ∧
    RCtx.freshStart ⟨fun _ => none, [.mk ⟨.real 1, 0, 2, 0⟩ DUMMY_SP [] .None], DUMMY_SP, 1⟩ =
      RCtx.freshStart ⟨fun _ => none, [], DUMMY_SP, 0⟩ :=
  ⟨rfl,
   (claim_c9 4 (.leaf 3) ⟨.real 1, 0, 2, 0⟩ ⟨fun _ => none, [], DUMMY_SP, 0⟩
     ⟨fun _ => none, [.mk ⟨.real 1, 0, 2, 0⟩ DUMMY_SP [] .None], DUMMY_SP, 1⟩ rfl).1⟩


/-! ## Header-qualifier recovery (`recover_item_rewrite_recycled`)

`find_fn_header_spans` drives the external parser over the printed text of
the new item and over the old item's retained token stream to obtain the
sub-spans of the five header qualifiers; those parser results are carried
here as data (`headerSpans` for the printed new item, `tokens` for the old
item's token stream, `none` modelling `item.tokens == None`). -/

/-- The result of `find_fn_header_spans`: one sub-span per header
qualifier. -/
structure FnHeaderSpans where
  vis : Span
  constness : Span
  unsafety : Span
  abi : Span
  ident : Span
deriving DecidableEq

/-- The parts of a function `Item` that `Item::rewrite_recycled` and the
recovery strategy read: the five header qualifiers (opaque values compared
by equality), the remaining children (attrs, id, span, decl, generics,
block) lumped into `body`, the item's `NodeId` and span, and the two parser
results described above. -/
structure ItemModel where
  vis : Nat
  constness : Nat
  unsafety : Nat
  abi : Nat
  ident : Nat
  body : Node
  idI : Nat
  spI : Span
  headerSpans : FnHeaderSpans
  tokens : Option FnHeaderSpans

/-- `fn record_qualifier_rewrite(old_span, new_span, rcx)`: record a minimal
edit replacing the old qualifier's span, extending the source span by one
character (to pick up the trailing space) when inserting text where there
was none. -/
def record_qualifier_rewrite (old_span new_span : Span) (rcx : RCtx) : RCtx :=
  let src_span :=
    if span_empty old_span && !span_empty new_span then
      new_span.withHi (new_span.hi + 1)
    else
      new_span
  rcx.record (Edit.mk old_span src_span [] TextAdjust.None)

/-- The single edit `record_qualifier_rewrite` records. -/
def qual_edit (old_span new_span : Span) : Edit :=
  Edit.mk old_span
    (if span_empty old_span && !span_empty new_span then
      new_span.withHi (new_span.hi + 1)
    else
      new_span)
    [] TextAdjust.None

theorem record_qualifier_rewrite_eq (old_span new_span : Span) (rcx : RCtx) :
    record_qualifier_rewrite old_span new_span rcx =
      rcx.record (qual_edit old_span new_span) := rfl

/-- The qualifier edits of one recovery, in the fixed source order
visibility, constness, unsafety, calling convention, identifier — one edit
for exactly each qualifier that differs. -/
def qual_edits (new old : ItemModel) (spans2 : FnHeaderSpans) : List Edit :=
  (if new.vis ≠ old.vis then [qual_edit spans2.vis new.headerSpans.vis] else []) ++
  (if new.constness ≠ old.constness then
    [qual_edit spans2.constness new.headerSpans.constness] else []) ++
  (if new.unsafety ≠ old.unsafety then
    [qual_edit spans2.unsafety new.headerSpans.unsafety] else []) ++
  (if new.abi ≠ old.abi then [qual_edit spans2.abi new.headerSpans.abi] else []) ++
  (if new.ident ≠ old.ident then [qual_edit spans2.ident new.headerSpans.ident] else [])

/-- `fn recover_item_rewrite_recycled(new, old, rcx) -> bool` (the
function-item arm): unavailable without the old token stream; otherwise
first reconcile the non-header children, then record one edit per differing
qualifier, in the fixed order. -/
def recover_item_rewrite_recycled (fuel : Nat) (new old : ItemModel) (rcx : RCtx) :
    Option (Bool × RCtx) :=
  match old.tokens with
  | none => some (true, rcx)
  | some spans2 =>
    match (engine fuel).rr new.body old.body rcx with
    | none => none
    | some (true, r) => some (true, r)
    | some (false, r) =>
      let spans1 := new.headerSpans
      let r := if new.vis ≠ old.vis then
        record_qualifier_rewrite spans2.vis spans1.vis r else r
      let r := if new.constness ≠ old.constness then
        record_qualifier_rewrite spans2.constness spans1.constness r else r
      let r := if new.unsafety ≠ old.unsafety then
        record_qualifier_rewrite spans2.unsafety spans1.unsafety r else r
      let r := if new.abi ≠ old.abi then
        record_qualifier_rewrite spans2.abi spans1.abi r else r
      let r := if new.ident ≠ old.ident then
        record_qualifier_rewrite spans2.ident spans1.ident r else r
      some (false, r)

/-- The children of an item as seen by the generated default strategy
(qualifiers as terminal leaves, then the lumped remaining children). -/
def itemFields (it : ItemModel) : List Node :=
  [.leaf it.vis, .leaf it.constness, .leaf it.unsafety, .leaf it.abi,
   .leaf it.ident, it.body]

/-- An item as a splice-point node (used by the final switch-to-fresh
fallback `<Item as Splice>::splice_recycled`). -/
def itemNode (it : ItemModel) : Node :=
  .splice it.idI it.spI 100 (itemFields it)

/-- `default_item_rewrite_recycled` (generated): child-by-child recycled
reconciliation of all the item's fields. -/
def default_item_rewrite_recycled (fuel : Nat) (new old : ItemModel) (rcx : RCtx) :
    Option (Bool × RCtx) :=
  (engine fuel).rrL (itemFields new) (itemFields old) rcx

/-- `<Item as Rewrite>::rewrite_recycled`: try the default strategy, rewind
and try header-qualifier recovery, rewind and fall back to the
switch-to-fresh splice (which never reports failure). -/
def item_rewrite_recycled (fuel : Nat) (new old : ItemModel) (rcx : RCtx) :
    Option (Bool × RCtx) :=
  let mark := rcx.edits.length
  match default_item_rewrite_recycled fuel new old rcx with
  | none => none
  | some (false, r) => some (false, r)
  | some (true, r) =>
    let r1 : RCtx := { r with edits := r.edits.take mark }
    let mark2 := r1.edits.length
    match recover_item_rewrite_recycled fuel new old r1 with
    | none => none
    | some (false, r2) => some (false, r2)
    | some (true, r2) =>
      let r3 : RCtx := { r2 with edits := r2.edits.take mark2 }
      match (engine fuel).spR (itemNode new) (itemNode old) r3 with
      | none => none
      | some r4 => some (false, r4)

/-- Claim C7: (1) when the old function item retains its token stream and
the reconciliation of the non-header children succeeds, header-qualifier
recovery records exactly one edit per differing qualifier, in the fixed
order visibility, constness, unsafety, calling convention, identifier, each
replacing the old qualifier's span by the new qualifier's span, extended by
one character when inserting into a previously-empty position; (2) without a
retained token stream the recovery reports failure and leaves the context
unchanged; (3) in that case `Item::rewrite_recycled` falls through (after
rewinding the failed default attempt) to the switch-to-fresh fallback. -/
theorem claim_c7 (fuel : Nat) (new old : ItemModel) (rcx : RCtx) :
    (old.tokens = none →
      recover_item_rewrite_recycled fuel new old rcx = some (true, rcx)) ∧
    (∀ spans2 r, old.tokens = some spans2 →
      rewrite_recycled fuel new.body old.body rcx = some (false, r) →
      recover_item_rewrite_recycled fuel new old rcx =
        some (false, { r with edits := r.edits ++ qual_edits new old spans2 })) ∧
    (∀ r1, old.tokens = none →
      default_item_rewrite_recycled fuel new old rcx = some (true, r1) →
      item_rewrite_recycled fuel new old rcx =
        ((engine fuel).spR (itemNode new) (itemNode old)
            { r1 with edits := r1.edits.take rcx.edits.length }).map
          (fun r4 => (false, r4))) := by
  refine ⟨fun htok => ?_, fun spans2 r htok hbody => ?_, fun r1 htok hdef => ?_⟩
  · simp [recover_item_rewrite_recycled, htok]
  · rw [rewrite_recycled] at hbody
    by_cases h1 : new.vis = old.vis <;>
      by_cases h2 : new.constness = old.constness <;>
      by_cases h3 : new.unsafety = old.unsafety <;>
      by_cases h4 : new.abi = old.abi <;>
      by_cases h5 : new.ident = old.ident <;>
      simp [recover_item_rewrite_recycled, htok, hbody, qual_edits,
        record_qualifier_rewrite_eq, RCtx.record, h1, h2, h3, h4, h5]
  · have haux : recover_item_rewrite_recycled fuel new old
        { r1 with edits := r1.edits.take rcx.edits.length } =
        some (true, { r1 with edits := r1.edits.take rcx.edits.length }) := by
      simp [recover_item_rewrite_recycled, htok]
    simp only [item_rewrite_recycled, hdef, haux, List.take_length]
    cases (engine fuel).spR (itemNode new) (itemNode old)
      { r1 with edits := r1.edits.take rcx.edits.length } with
    | none => rfl
    | some r4 => rfl

/-- Old-item header spans of the C7 witness: the `unsafe` position is empty
(the qualifier is absent in the old source). -/
def c7w_spans2 : FnHeaderSpans :=
  ⟨⟨.real 1, 0, 0, 0⟩, ⟨.real 1, 4, 4, 0⟩, ⟨.real 1, 4, 4, 0⟩, ⟨.real 1, 4, 4, 0⟩,
   ⟨.real 1, 7, 10, 0⟩⟩

/-- Old item of the C7 witness: `fn foo` with no `unsafe`, token stream
retained. -/
def c7w_old : ItemModel :=
  ⟨0, 0, 0, 0, 42, .leaf 7, 10, ⟨.real 1, 0, 50, 0⟩,
   ⟨⟨.anon 3, 0, 0, 0⟩, ⟨.anon 3, 4, 4, 0⟩, ⟨.anon 3, 4, 4, 0⟩, ⟨.anon 3, 4, 4, 0⟩,
    ⟨.anon 3, 7, 10, 0⟩⟩,
   some c7w_spans2⟩

/-- New item of the C7 witness: the same item with `unsafe` added; its
printed header carries a non-empty `unsafe` span. -/
def c7w_new : ItemModel :=
  ⟨0, 0, 1, 0, 42, .leaf 7, 10, ⟨.real 1, 0, 50, 0⟩,
   ⟨⟨.anon 3, 0, 0, 0⟩, ⟨.anon 3, 4, 4, 0⟩, ⟨.anon 3, 4, 10, 0⟩, ⟨.anon 3, 11, 11, 0⟩,
    ⟨.anon 3, 14, 17, 0⟩⟩,
   some c7w_spans2⟩

/-- The old item of the C7 witness with no retained token stream. -/
def c7w_oldNT : ItemModel := { c7w_old with tokens := none }

/-- Initial context of the C7 witness. -/
def c7w_rcx : RCtx := ⟨fun _ => none, [], DUMMY_SP, 0⟩

/-- Witness for C7: adding `unsafe` to a function records exactly one
qualifier edit whose replacement span is extended by one character (the
old position was empty); without a token stream the recovery fails and
`Item::rewrite_recycled` falls through to the splice fallback. -/
theorem claim_c7_witness :
    c7w_old.tokens = some c7w_spans2 ∧
    rewrite_recycled 5 c7w_new.body c7w_old.body c7w_rcx = some (false, c7w_rcx) ∧
    recover_item_rewrite_recycled 5 c7w_new c7w_old c7w_rcx =
      some (false, { c7w_rcx with
        edits := c7w_rcx.edits ++ qual_edits c7w_new c7w_old c7w_spans2 }) ∧
    qual_edits c7w_new c7w_old c7w_spans2 =
      [Edit.mk ⟨.real 1, 4, 4, 0⟩ ⟨.anon 3, 4, 11, 0⟩ [] TextAdjust.None] ∧
    c7w_oldNT.tokens = none ∧
    recover_item_rewrite_recycled 5 c7w_new c7w_oldNT c7w_rcx = some (true, c7w_rcx) ∧
    default_item_rewrite_recycled 5 c7w_new c7w_oldNT c7w_rcx = some (true, c7w_rcx) ∧
    item_rewrite_recycled 5 c7w_new c7w_oldNT c7w_rcx =
      ((engine 5).spR (itemNode c7w_new) (itemNode c7w_oldNT)
          { c7w_rcx with edits := c7w_rcx.edits.take c7w_rcx.edits.length }).map
        (fun r4 => (false, r4)) :=
  ⟨rfl, rfl,
   (claim_c7 5 c7w_new c7w_old c7w_rcx).2.1 c7w_spans2 c7w_rcx rfl rfl,
   rfl, rfl,
   (claim_c7 5 c7w_new c7w_oldNT c7w_rcx).1 rfl,
   rfl,
   (claim_c7 5 c7w_new c7w_oldNT c7w_rcx).2.2 c7w_rcx rfl rfl⟩

/-- Claim C5: `get_adjustment` returns `Parenthesize` exactly when the
expression's precedence is below the destination's minimum, or the
destination is a conditional head and the expression contains an exterior
struct literal, or the destination is a call callee and the expression is a
field access; in every other case it returns `None`. -/
theorem claim_c5 (e : ExprInfo) :
    (∀ m : Int, get_adjustment e (.Normal m) = .Parenthesize ↔ e.precOrder < m) ∧
    (∀ m : Int, get_adjustment e (.Cond m) = .Parenthesize ↔
      (e.precOrder < m ∨ e.containsExteriorStructLit = true)) ∧
    (∀ m : Int, get_adjustment e (.Callee m) = .Parenthesize ↔
      (e.precOrder < m ∨ e.isField = true)) ∧
    (∀ p : ExprPrec, get_adjustment e p = .Parenthesize ∨ get_adjustment e p = .None) := by
  refine ⟨fun m => ?_, fun m => ?_, fun m => ?_, fun p => ?_⟩
  · simp [get_adjustment]
  · by_cases h : e.containsExteriorStructLit <;> simp [get_adjustment, h]
  · by_cases h : e.isField <;> by_cases h2 : e.precOrder < m <;>
      simp [get_adjustment, h, h2]
  · unfold get_adjustment
    rcases p with m | m | m <;> dsimp only <;> split <;> simp <;> omega

/-- Claim C6: a left-associative operator requires its own precedence of the
left operand and precedence plus one of the right operand, a
right-associative operator requires the converse, and a non-associative
operator requires precedence plus one on both sides; consequently a
lower-precedence expression spliced as the left operand of a left-associative
operator gets adjustment `Parenthesize`, while the same expression spliced as
a standalone statement gets `None`. -/
theorem claim_c6 (p : Int) (e : ExprInfo) :
    binop_left_prec ⟨p, .Left⟩ = p ∧ binop_right_prec ⟨p, .Left⟩ = p + 1 ∧
    binop_left_prec ⟨p, .Right⟩ = p + 1 ∧ binop_right_prec ⟨p, .Right⟩ = p ∧
    binop_left_prec ⟨p, .None⟩ = p + 1 ∧ binop_right_prec ⟨p, .None⟩ = p + 1 ∧
    (get_adjustment e (binop_left_operand_prec ⟨p, .Left⟩) = .Parenthesize ↔
      e.precOrder < p) ∧
    (get_adjustment e stmt_expr_prec = .None ↔ -100 ≤ e.precOrder) := by
  refine ⟨rfl, rfl, rfl, rfl, rfl, rfl, ?_, ?_⟩
  · simp [get_adjustment, binop_left_operand_prec, binop_left_prec]
  · simp [get_adjustment, stmt_expr_prec]

/-- Claim C10: `TypeConverter::convert` treats unregistered declaration names
asymmetrically: a `Struct` whose declaration id has no registered name yields
`Err("Unknown decl id ...")`, while `Union`, `Enum` and `Typedef` with an
unregistered declaration id panic (`unwrap` of `None`, modelled as `none`);
unsupported type kinds yield `Err("Unsupported type ...")`. -/
theorem claim_c10 (tc : TypeConverter) (ctxt : TypedAstContext) (t d fuel : Nat)
    (hd : tc.renamer d = none) :
    (ctxt.index t = .Struct d →
      convert tc ctxt (fuel + 1) t = some (.error ("Unknown decl id " ++ toString d))) ∧
    (ctxt.index t = .Union d → convert tc ctxt (fuel + 1) t = none) ∧
    (ctxt.index t = .Enum d → convert tc ctxt (fuel + 1) t = none) ∧
    (ctxt.index t = .Typedef d → convert tc ctxt (fuel + 1) t = none) ∧
    (∀ tag, ctxt.index t = .Other tag →
      convert tc ctxt (fuel + 1) t = some (.error ("Unsupported type " ++ toString tag))) := by
  refine ⟨fun h => ?_, fun h => ?_, fun h => ?_, fun h => ?_, fun tag h => ?_⟩ <;>
    simp [convert, convFns, convStep, h, hd]

/-- Witness for C10 at a concrete converter: declaration id 3 is
unregistered; type 0 is `Struct 3` (an `Err` result), type 1 is `Union 3`
(a panic). -/
theorem claim_c10_witness :
    TypeConverter.renamer ⟨fun _ => none⟩ 3 = none ∧
    convert ⟨fun _ => none⟩
      ⟨fun n => if n = 0 then .Struct 3 else .Union 3, fun _ => .Void⟩ 5 0 =
      some (.error ("Unknown decl id " ++ toString 3)) ∧
    convert ⟨fun _ => none⟩
      ⟨fun n => if n = 0 then .Struct 3 else .Union 3, fun _ => .Void⟩ 5 1 = none := by
  refine ⟨rfl, ?_, ?_⟩
  · exact (claim_c10 ⟨fun _ => none⟩
      ⟨fun n => if n = 0 then .Struct 3 else .Union 3, fun _ => .Void⟩ 0 3 4 rfl).1 rfl
  · exact (claim_c10 ⟨fun _ => none⟩
      ⟨fun n => if n = 0 then .Struct 3 else .Union 3, fun _ => .Void⟩ 1 3 4 rfl).2.1 rfl

end CR
